import Mathlib

set_option maxRecDepth 100000
set_option maxHeartbeats 1000000

/-!
# Verification of the IS_Proj image-steganography engine

A shallow embedding, in Lean 4, of the core algorithms of the repository:

* `adaptive_stego.py` — the adaptive LSB-MSB embedder/extractor
  (`AdaptiveSteganography`): MSB-case classification of pixel pairs,
  per-pair bit writes, header layout in row 0, Sobel edge map, block
  partitioning and ordering, the `Di <= Me` gate and the embedding walk.
* `paper_implementation/steno.py` — the simple 3-pixels-per-character
  LSB baseline (`SteganographyLSB`).
* `paper_implementation/steno_enhanced.py` — the edge-adaptive LSB
  variant (`EdgeAdaptiveLSB`), in particular its LSB-masked Sobel.
* `steganalysis.py` — RS analysis (`RSAnalysis.analyze`).

Machine `uint8` samples are modelled as `ℕ` (all writes produced by the
code stay below 256); `int` differences as `ℤ`; exact float quantities
(medians and their means, normalized counts) as `ℚ`; and the Sobel
magnitude `sqrt(gx² + gy²)` as a real number (`Real.sqrt` of the exact
integer `gx² + gy²`).
-/

namespace ISProj

/-! ## Pixel-pair embedding (`adaptive_stego.py` lines 85-166)

`AdaptiveSteganography._get_embedding_case`, `_embed_bits_in_pixel_pair`
and `_extract_bits_from_pixel_pair`, transcribed bit-operation by
bit-operation.  Payload bits are `0`/`1` naturals; a pixel pair is a pair
of naturals. -/

/-- `_get_embedding_case(p1, p2)`: the case in {0,1,2,3} determined by
the MSBs `(p1 >> 7) & 1` and `(p2 >> 7) & 1`. -/
def getEmbeddingCase (p1 p2 : ℕ) : ℕ :=
  if (p1 >>> 7) &&& 1 = 0 ∧ (p2 >>> 7) &&& 1 = 0 then 0
  else if (p1 >>> 7) &&& 1 = 1 ∧ (p2 >>> 7) &&& 1 = 0 then 1
  else if (p1 >>> 7) &&& 1 = 0 ∧ (p2 >>> 7) &&& 1 = 1 then 2
  else 3

/-- The per-case bit budget `[2, 3, 3, 4][case]` used at
`adaptive_stego.py:270`. -/
def caseBits (c : ℕ) : ℕ := [2, 3, 3, 4].getD c 0

/-- `_embed_bits_in_pixel_pair(p1, p2, bits)`.  Note that each branch
only writes when `len(bits)` reaches the case's bit budget; otherwise
the pixels are returned unchanged. -/
def embedBitsInPixelPair (p1 p2 : ℕ) (bits : List ℕ) : ℕ × ℕ :=
  let c := getEmbeddingCase p1 p2
  if c = 0 then
    if 2 ≤ bits.length then
      ((p1 &&& 0b11111101) ||| (bits.getD 0 0 <<< 1),
       (p2 &&& 0b11111101) ||| (bits.getD 1 0 <<< 1))
    else (p1, p2)
  else if c = 1 then
    if 3 ≤ bits.length then
      ((p1 &&& 0b11110011) ||| (bits.getD 0 0 <<< 2) ||| (bits.getD 1 0 <<< 3),
       (p2 &&& 0b11111101) ||| (bits.getD 2 0 <<< 1))
    else (p1, p2)
  else if c = 2 then
    if 3 ≤ bits.length then
      ((p1 &&& 0b11111101) ||| (bits.getD 0 0 <<< 1),
       (p2 &&& 0b11110011) ||| (bits.getD 1 0 <<< 2) ||| (bits.getD 2 0 <<< 3))
    else (p1, p2)
  else
    if 4 ≤ bits.length then
      ((p1 &&& 0b11110011) ||| (bits.getD 0 0 <<< 2) ||| (bits.getD 1 0 <<< 3),
       (p2 &&& 0b11110011) ||| (bits.getD 2 0 <<< 2) ||| (bits.getD 3 0 <<< 3))
    else (p1, p2)

/-- `_extract_bits_from_pixel_pair(p1, p2)`. -/
def extractBitsFromPixelPair (p1 p2 : ℕ) : List ℕ :=
  let c := getEmbeddingCase p1 p2
  if c = 0 then [(p1 >>> 1) &&& 1, (p2 >>> 1) &&& 1]
  else if c = 1 then [(p1 >>> 2) &&& 1, (p1 >>> 3) &&& 1, (p2 >>> 1) &&& 1]
  else if c = 2 then [(p1 >>> 1) &&& 1, (p2 >>> 2) &&& 1, (p2 >>> 3) &&& 1]
  else [(p1 >>> 2) &&& 1, (p1 >>> 3) &&& 1, (p2 >>> 2) &&& 1, (p2 >>> 3) &&& 1]

/-- The partial-write behaviour described by the specification for a pair
whose remaining payload is shorter than the case's bit budget: the
available bits are assigned, in order, to the case's listed target bit
positions (case 0: p1 bit 1, p2 bit 1; case 1: p1 bit 2, p1 bit 3, p2
bit 1; case 2: p1 bit 1, p2 bit 2, p2 bit 3; case 3: p1 bit 2, p1 bit 3,
p2 bit 2, p2 bit 3), each by clearing the position and OR-ing the bit in;
unused target positions are left unchanged.  This definition follows the
spec's words and is compared against `embedBitsInPixelPair` above. -/
def partialWriteSpec (p1 p2 : ℕ) (bits : List ℕ) : ℕ × ℕ :=
  let c := getEmbeddingCase p1 p2
  let targets : List (Bool × ℕ) :=
    if c = 0 then [(true, 1), (false, 1)]
    else if c = 1 then [(true, 2), (true, 3), (false, 1)]
    else if c = 2 then [(true, 1), (false, 2), (false, 3)]
    else [(true, 2), (true, 3), (false, 2), (false, 3)]
  (List.zip bits targets).foldl
    (fun (st : ℕ × ℕ) bt =>
      let b := bt.1
      let toP1 := bt.2.1
      let pos := bt.2.2
      if toP1 then ((st.1 &&& (255 - (1 <<< pos))) ||| (b <<< pos), st.2)
      else (st.1, (st.2 &&& (255 - (1 <<< pos))) ||| (b <<< pos)))
    (p1, p2)

/-- The bit positions of `p1` that a case's write may touch:
case 0 → bit 1, case 1 → bits 2,3, case 2 → bit 1, case 3 → bits 2,3. -/
def allowedMaskP1 (c : ℕ) : ℕ := [2, 12, 2, 12].getD c 0

/-- The bit positions of `p2` that a case's write may touch:
case 0 → bit 1, case 1 → bit 1, case 2 → bits 2,3, case 3 → bits 2,3. -/
def allowedMaskP2 (c : ℕ) : ℕ := [2, 2, 12, 12].getD c 0

/-! ## Sobel gradient maps

`AdaptiveSteganography._compute_edge_map` (`adaptive_stego.py` lines
34-51) applies `cv2.Sobel(gray, CV_64F, ·, ·, ksize=3)` directly to the
image (for a 2-D input, `gray = image.copy()` — no LSB masking), then
returns `sqrt(sobelx² + sobely²)`.

`EdgeAdaptiveLSB.compute_sobel_gradient` (`steno_enhanced.py` lines
48-77) first masks every channel with `& 0xFE`, converts BGR to gray,
and only then applies the same Sobel.

Images are total functions `ℕ → ℕ → ℕ` (gray) or `ℕ → ℕ → BGR` (color)
together with explicit height/width; out-of-range Sobel taps use
OpenCV's default `BORDER_REFLECT_101`. -/

/-- OpenCV `BORDER_REFLECT_101` index reflection (`cv2.Sobel` default):
`-1 ↦ 1`, `-2 ↦ 2`, `n ↦ n-2`, `n+1 ↦ n-3`. -/
def refl101 (n : ℕ) (i : ℤ) : ℕ :=
  if i < 0 then (-i).toNat
  else if (n : ℤ) ≤ i then (2 * n - 2 - i).toNat
  else i.toNat

/-- The 3×3 Sobel x-derivative kernel as `(dy, dx, coefficient)` taps. -/
def sobelKxEntries : List (ℤ × ℤ × ℤ) :=
  [(-1, -1, -1), (-1, 0, 0), (-1, 1, 1),
   (0, -1, -2), (0, 0, 0), (0, 1, 2),
   (1, -1, -1), (1, 0, 0), (1, 1, 1)]

/-- The 3×3 Sobel y-derivative kernel as `(dy, dx, coefficient)` taps. -/
def sobelKyEntries : List (ℤ × ℤ × ℤ) :=
  [(-1, -1, -1), (-1, 0, -2), (-1, 1, -1),
   (0, -1, 0), (0, 0, 0), (0, 1, 0),
   (1, -1, 1), (1, 0, 2), (1, 1, 1)]

/-- `cv2.Sobel(g, CV_64F, 1, 0, ksize=3)` at pixel `(y, x)` (correlation
with the Sobel x kernel, reflect-101 borders); exact over `ℤ`. -/
def sobelGx (g : ℕ → ℕ → ℕ) (h w : ℕ) (y x : ℕ) : ℤ :=
  (sobelKxEntries.map (fun e =>
    e.2.2 * (g (refl101 h ((y : ℤ) + e.1)) (refl101 w ((x : ℤ) + e.2.1)) : ℤ))).sum

/-- `cv2.Sobel(g, CV_64F, 0, 1, ksize=3)` at pixel `(y, x)`. -/
def sobelGy (g : ℕ → ℕ → ℕ) (h w : ℕ) (y x : ℕ) : ℤ :=
  (sobelKyEntries.map (fun e =>
    e.2.2 * (g (refl101 h ((y : ℤ) + e.1)) (refl101 w ((x : ℤ) + e.2.1)) : ℤ))).sum

/-- The exact squared gradient magnitude `sobelx² + sobely²`. -/
def gradSq (g : ℕ → ℕ → ℕ) (h w : ℕ) (y x : ℕ) : ℤ :=
  sobelGx g h w y x ^ 2 + sobelGy g h w y x ^ 2

/-- `_compute_edge_map` on a grayscale image: the Sobel magnitude
`sqrt(sobelx² + sobely²)`, with **no** LSB masking. -/
noncomputable def adaptiveEdgeMapGray (g : ℕ → ℕ → ℕ) (h w : ℕ) (y x : ℕ) : ℝ :=
  Real.sqrt ((gradSq g h w y x : ℤ) : ℝ)

/-- A BGR sample triple `(b, g, r)`. -/
abbrev BGR := ℕ × ℕ × ℕ

/-- `image_stable = (image_cv & 0xFE)` applied to one pixel
(`steno_enhanced.py` line 65). -/
def maskFE (c : BGR) : BGR := (c.1 &&& 0xFE, c.2.1 &&& 0xFE, c.2.2 &&& 0xFE)

/-- OpenCV's fixed-point BT.601 `cv2.cvtColor(·, COLOR_BGR2GRAY)`:
`(1868·B + 9617·G + 4899·R + 2¹³) >> 14`. -/
def bgr2gray (c : BGR) : ℕ := (1868 * c.1 + 9617 * c.2.1 + 4899 * c.2.2 + 8192) >>> 14

/-- Pixel-wise XOR of two color images (`I ^ mask`). -/
def xorImg3 (img mask : ℕ → ℕ → BGR) : ℕ → ℕ → BGR := fun y x =>
  ((img y x).1 ^^^ (mask y x).1, (img y x).2.1 ^^^ (mask y x).2.1,
   (img y x).2.2 ^^^ (mask y x).2.2)

/-- Pixel-wise XOR of two grayscale images. -/
def xorImgGray (img mask : ℕ → ℕ → ℕ) : ℕ → ℕ → ℕ := fun y x => img y x ^^^ mask y x

/-- `EdgeAdaptiveLSB.compute_sobel_gradient`: mask every channel with
`0xFE`, convert BGR to gray, then the Sobel magnitude. -/
noncomputable def enhancedEdgeMap (img : ℕ → ℕ → BGR) (h w : ℕ) (y x : ℕ) : ℝ :=
  Real.sqrt ((gradSq (fun y x => bgr2gray (maskFE (img y x))) h w y x : ℤ) : ℝ)

/-! ## Header layout (`adaptive_stego.py` lines 204-222 and 326-338) -/

/-- MSB-first binary digits `format(n, '0kb')` as a list of `k` bits. -/
def bitsMSB (k n : ℕ) : List ℕ := (List.range k).map (fun i => n / 2 ^ (k - 1 - i) % 2)

/-- `int(bits, 2)` for a list of bits. -/
def bitsVal (l : List ℕ) : ℕ := l.foldl (fun a b => 2 * a + b) 0

/-- The header pass of `encode` on row 0: LSB-write the 8 bits of UB into
columns 0..7 and of LB into columns 8..15 (lines 215-217), and the 32
bits of the payload bit length into columns 16..47 (lines 220-222); each
write clears the LSB and ORs the header bit in; other columns are
untouched. -/
def headerWriteRow (row : ℕ → ℕ) (ub lb plen : ℕ) : ℕ → ℕ := fun i =>
  if i < 8 then (row i &&& 0xFE) ||| (bitsMSB 8 ub).getD i 0
  else if i < 16 then (row i &&& 0xFE) ||| (bitsMSB 8 lb).getD (i - 8) 0
  else if i < 48 then (row i &&& 0xFE) ||| (bitsMSB 32 plen).getD (i - 16) 0
  else row i

/-- The header read of `decode`: UB from the LSBs of row 0 columns 0..7,
LB from columns 8..15, the payload bit length from columns 16..47. -/
def decodeHeaderRow (row : ℕ → ℕ) : ℕ × ℕ × ℕ :=
  (bitsVal ((List.range 8).map (fun i => row i &&& 1)),
   bitsVal ((List.range 8).map (fun i => row (i + 8) &&& 1)),
   bitsVal ((List.range 32).map (fun i => row (i + 16) &&& 1)))

/-! ## Block partitioning and ordering (`adaptive_stego.py` lines 53-66,
232-241 and 344-352) -/

/-- Python `range(start, stop, step)` for a positive step. -/
def pyRange (start stop : ℤ) (step : ℕ) : List ℤ :=
  if start < stop ∧ 0 < step then start :: pyRange (start + step) stop step else []
termination_by (stop - start).toNat
decreasing_by
  rename_i hcond
  omega

/-- `_partition_into_blocks`: the top-left corners `(i, j)` of the B×B
tiles, iterating `i in range(0, h - B + 1, B)` then
`j in range(0, w - B + 1, B)` (row-major; partial edges ignored). -/
def tileOrigins (h w B : ℕ) : List (ℕ × ℕ) :=
  (pyRange 0 ((h : ℤ) - B + 1) B).flatMap (fun i =>
    (pyRange 0 ((w : ℤ) - B + 1) B).map (fun j => (i.toNat, j.toNat)))

/-- `np.mean(edge_map[bi:bi+B, bj:bj+B])`: the block's edge score. -/
noncomputable def blockScore (edges : ℕ → ℕ → ℝ) (B bi bj : ℕ) : ℝ :=
  (((List.range B).flatMap (fun i =>
    (List.range B).map (fun j => edges (bi + i) (bj + j)))).sum) / ((B * B : ℕ) : ℝ)

/-- One step of a stable descending insertion by score (first component).
An element is placed before the first existing element whose score is
`≤` its own, so among equal scores earlier elements stay first — the
behaviour of Python's stable `list.sort(reverse=True, key=...)`. -/
noncomputable def pyInsertDesc (a : ℝ × ℕ × ℕ) :
    List (ℝ × ℕ × ℕ) → List (ℝ × ℕ × ℕ)
  | [] => [a]
  | b :: t => if b.1 ≤ a.1 then a :: b :: t else b :: pyInsertDesc a t

/-- Stable sort, descending by score: the result of
`block_edge_scores.sort(reverse=True, key=lambda x: x[0])`. -/
noncomputable def pySortDesc : List (ℝ × ℕ × ℕ) → List (ℝ × ℕ × ℕ)
  | [] => []
  | a :: t => pyInsertDesc a (pySortDesc t)

/-- Encoder lines 232-239: `blocks[1:]` (every tile except the first,
header-bearing one) scored by the block mean of the edge map. -/
noncomputable def encoderCandidates (edges : ℕ → ℕ → ℝ) (h w B : ℕ) :
    List (ℝ × ℕ × ℕ) :=
  ((tileOrigins h w B).drop 1).map (fun bij =>
    (blockScore edges B bij.1 bij.2, bij.1, bij.2))

/-- Decoder lines 346-350: the same construction, from the decoder's
loop over `blocks[1:]`. -/
noncomputable def decoderCandidates (edges : ℕ → ℕ → ℝ) (h w B : ℕ) :
    List (ℝ × ℕ × ℕ) :=
  ((tileOrigins h w B).drop 1).map (fun bij =>
    (blockScore edges B bij.1 bij.2, bij.1, bij.2))

/-- Encoder line 239: the sorted block order used for embedding. -/
noncomputable def encoderBlockOrder (edges : ℕ → ℕ → ℝ) (h w B : ℕ) :
    List (ℝ × ℕ × ℕ) :=
  pySortDesc (encoderCandidates edges h w B)

/-- Decoder line 352: the sorted block order used for extraction. -/
noncomputable def decoderBlockOrder (edges : ℕ → ℕ → ℝ) (h w B : ℕ) :
    List (ℝ × ℕ × ℕ) :=
  pySortDesc (decoderCandidates edges h w B)

/-- Ascending lexicographic order on tile origins — the "natural
row-major tile index" order. -/
def idxLex (a b : ℝ × ℕ × ℕ) : Prop :=
  a.2.1 < b.2.1 ∨ (a.2.1 = b.2.1 ∧ a.2.2 < b.2.2)

/-- The specified total comparator: strictly larger score first, ties
broken by ascending tile origin. -/
def ordRel (a b : ℝ × ℕ × ℕ) : Prop :=
  b.1 < a.1 ∨ (a.1 = b.1 ∧ idxLex a b)

/-! ## The adaptive embedding walk (`adaptive_stego.py` lines 196-298) -/

/-- Insertion into a sorted list of naturals (ascending). -/
def insertNat (a : ℕ) : List ℕ → List ℕ
  | [] => [a]
  | b :: t => if a ≤ b then a :: b :: t else b :: insertNat a t

/-- Ascending sort of a list of naturals (for `np.median`). -/
def sortedNat : List ℕ → List ℕ
  | [] => []
  | a :: t => insertNat a (sortedNat t)

/-- `np.median`: middle element for odd length, mean of the two middle
elements for even length; exact over `ℚ`. -/
def npMedian (l : List ℕ) : ℚ :=
  if l.length % 2 = 1 then ((sortedNat l).getD (l.length / 2) 0 : ℕ)
  else ((((sortedNat l).getD (l.length / 2 - 1) 0 : ℕ) : ℚ)
    + (((sortedNat l).getD (l.length / 2) 0 : ℕ) : ℚ)) / 2

/-- `_compute_mean_of_medians` (lines 68-83): the mean over the block's
columns of the per-column median; exact over `ℚ`. -/
def meanOfMedians (σ : ℕ → ℕ → ℕ) (B bi bj : ℕ) : ℚ :=
  (((List.range B).map (fun j =>
    npMedian ((List.range B).map (fun i => σ (bi + i) (bj + j))))).sum) / (B : ℚ)

/-- Point update of the mutable image buffer. -/
def writePx (σ : ℕ → ℕ → ℕ) (y x v : ℕ) : ℕ → ℕ → ℕ := fun y' x' =>
  if y' = y ∧ x' = x then v else σ y' x'

/-- The intra-block pair walk (lines 256-257):
`for i in range(0, B - 1, 2): for j in range(0, B)`. -/
def pairIndices (B : ℕ) : List (ℕ × ℕ) :=
  (pyRange 0 ((B : ℤ) - 1) 2).flatMap (fun i =>
    (pyRange 0 (B : ℤ) 1).map (fun j => (i.toNat, j.toNat)))

/-- The mutable state of the embedding walk: the image buffer, the index
of the next payload bit, and the `embedded_bits` counter. -/
structure WalkState where
  buf : ℕ → ℕ → ℕ
  bitIdx : ℕ
  embedded : ℕ

/-- Lines 258-284: one pixel pair `(buffer[bi+i, bj+j],
buffer[bi+i+1, bj+j])`.  Stop if all payload bits are consumed; skip if
`|p1 - p2| > Me`; otherwise consume `min(case_bits, remaining)` bits,
embed them (a write happens only when bits were consumed), and advance. -/
def processPair (payload : List ℕ) (Me : ℚ) (bi bj : ℕ) (st : WalkState)
    (ij : ℕ × ℕ) : WalkState :=
  if payload.length ≤ st.bitIdx then st
  else
    let p1 := st.buf (bi + ij.1) (bj + ij.2)
    let p2 := st.buf (bi + ij.1 + 1) (bj + ij.2)
    if ((((p1 : ℤ) - (p2 : ℤ)).natAbs : ℚ)) ≤ Me then
      let tk := min (caseBits (getEmbeddingCase p1 p2)) (payload.length - st.bitIdx)
      let bts := (payload.drop st.bitIdx).take tk
      if bts ≠ [] then
        { buf := writePx (writePx st.buf (bi + ij.1) (bj + ij.2)
              (embedBitsInPixelPair p1 p2 bts).1)
            (bi + ij.1 + 1) (bj + ij.2) (embedBitsInPixelPair p1 p2 bts).2,
          bitIdx := st.bitIdx + tk,
          embedded := st.embedded + bts.length }
      else st
    else st

/-- Lines 244-286: one block of the sorted walk.  Stop once the payload
is exhausted; skip blocks whose edge score is below the threshold;
otherwise compute `Me` from the block's current samples and walk its
pixel pairs. -/
noncomputable def processBlock (payload : List ℕ) (B : ℕ) (T : ℝ)
    (st : WalkState) (blk : ℝ × ℕ × ℕ) : WalkState :=
  if payload.length ≤ st.bitIdx then st
  else if blk.1 < T then st
  else
    (pairIndices B).foldl
      (processPair payload (meanOfMedians st.buf B blk.2.1 blk.2.2) blk.2.1 blk.2.2)
      st

/-- `np.max` over the h×w gray plane (samples are `uint8`, hence `≥ 0`). -/
def imgMax (g : ℕ → ℕ → ℕ) (h w : ℕ) : ℕ :=
  (((List.range h).flatMap (fun y => (List.range w).map (fun x => g y x))).foldl
    max 0)

/-- `np.min` over the h×w gray plane (samples are `uint8`, hence `≤ 255`). -/
def imgMin (g : ℕ → ℕ → ℕ) (h w : ℕ) : ℕ :=
  (((List.range h).flatMap (fun y => (List.range w).map (fun x => g y x))).foldl
    min 255)

/-- The post-header stego buffer the walk starts from: the gray plane
with the header written into row 0 (lines 201-222). -/
def stegoInit (img : ℕ → ℕ → ℕ) (h w plen : ℕ) : ℕ → ℕ → ℕ := fun y x =>
  if y = 0 then headerWriteRow (img 0) (imgMax img h w) (imgMin img h w) plen x
  else img y x

/-- The embedding pass of `encode` (lines 196-298): initialize the stego
buffer from the gray plane, write the header into row 0, then walk the
sorted blocks.  `edges` is the Sobel edge map the encoder computed (from
the cover image, line 187). -/
noncomputable def adaptiveEmbedInternal (edges : ℕ → ℕ → ℝ) (img : ℕ → ℕ → ℕ)
    (h w B : ℕ) (T : ℝ) (payload : List ℕ) : WalkState :=
  (encoderBlockOrder edges h w B).foldl (processBlock payload B T)
    { buf := stegoInit img h w payload.length,
      bitIdx := 0,
      embedded := 0 }

/-- The `embedded_bits` value of the metadata returned by `encode`. -/
noncomputable def adaptiveEmbeddedBits (edges : ℕ → ℕ → ℝ) (img : ℕ → ℕ → ℕ)
    (h w B : ℕ) (T : ℝ) (payload : List ℕ) : ℕ :=
  (adaptiveEmbedInternal edges img h w B T payload).embedded

/-- The two buffer cells of a pair `(i, j)` inside the block at
`(bi, bj)`. -/
def pairCells (bi bj : ℕ) (ij : ℕ × ℕ) (y x : ℕ) : Prop :=
  (y = bi + ij.1 ∧ x = bj + ij.2) ∨ (y = bi + ij.1 + 1 ∧ x = bj + ij.2)

/-- Whether `(y, x)` lies in the B×B block at `(bi, bj)`. -/
def inBlock (B bi bj y x : ℕ) : Prop :=
  bi ≤ y ∧ y < bi + B ∧ bj ≤ x ∧ x < bj + B

/-- The bits a pair would consume, judged against a fixed buffer: its
case budget if the `|p1 - p2| ≤ Me` gate passes, else 0. -/
def pairCap (σ : ℕ → ℕ → ℕ) (Me : ℚ) (bi bj : ℕ) (ij : ℕ × ℕ) : ℕ :=
  if ((((σ (bi + ij.1) (bj + ij.2) : ℤ) - (σ (bi + ij.1 + 1) (bj + ij.2) : ℤ)).natAbs
      : ℚ)) ≤ Me then
    caseBits (getEmbeddingCase (σ (bi + ij.1) (bj + ij.2))
      (σ (bi + ij.1 + 1) (bj + ij.2)))
  else 0

/-- The total bit capacity of a block, judged against a fixed buffer. -/
def blockCap (σ : ℕ → ℕ → ℕ) (B bi bj : ℕ) : ℕ :=
  ((pairIndices B).map (pairCap σ (meanOfMedians σ B bi bj) bi bj)).sum

/-- Greedy consumption of `r` remaining bits over a list of
(score, capacity) blocks, skipping blocks under the threshold. -/
noncomputable def walkConsume (T : ℝ) : List (ℝ × ℕ) → ℕ → ℕ
  | [], _ => 0
  | b :: bs, r =>
      if b.1 < T then walkConsume T bs r
      else min b.2 r + walkConsume T bs (r - min b.2 r)

/-! ## Simple LSB baseline (`paper_implementation/steno.py` lines 38-101) -/

/-- `bin_val[-1] = bit` on an 8-bit binary string: replace the LSB. -/
def setLSB (v b : ℕ) : ℕ := 2 * (v / 2) + b

/-- Bit `j` (MSB-first) of a character code, `f'{ord(c):08b}'[j]`. -/
def charBit (c j : ℕ) : ℕ := c / 2 ^ (7 - j) % 2

/-- The nine channel values of three consecutive pixels
(`nine_vals = list(p1) + list(p2) + list(p3)`). -/
def nineVals (px : ℕ → BGR) (base : ℕ) : List ℕ :=
  [(px base).1, (px base).2.1, (px base).2.2,
   (px (base + 1)).1, (px (base + 1)).2.1, (px (base + 1)).2.2,
   (px (base + 2)).1, (px (base + 2)).2.1, (px (base + 2)).2.2]

/-- Lines 78-89: put the 8 character bits into the LSBs of the first 8
channel values and the continuation flag into the 9th. -/
def embedCharVals (c hasMore : ℕ) (vals : List ℕ) : List ℕ :=
  (List.range 9).map (fun i =>
    if i < 8 then setLSB (vals.getD i 0) (charBit c i)
    else setLSB (vals.getD i 0) hasMore)

/-- Lines 91-93: write the nine modified channel values back into the
three pixels starting at linear index `base`. -/
def writeNine (px : ℕ → BGR) (base : ℕ) (nine : List ℕ) : ℕ → BGR := fun idx =>
  if idx = base then (nine.getD 0 0, nine.getD 1 0, nine.getD 2 0)
  else if idx = base + 1 then (nine.getD 3 0, nine.getD 4 0, nine.getD 5 0)
  else if idx = base + 2 then (nine.getD 6 0, nine.getD 7 0, nine.getD 8 0)
  else px idx

/-- The embedding loop of `SteganographyLSB.encode` (lines 58-93), over
pixels indexed linearly in row-major order. -/
def simpleLSBEmbedAll (cipher : List ℕ) (px : ℕ → BGR) : ℕ → BGR :=
  cipher.enum.foldl
    (fun p ic =>
      let hasMore := if ic.1 < cipher.length - 1 then 1 else 0
      writeNine p (3 * ic.1) (embedCharVals ic.2 hasMore (nineVals p (3 * ic.1))))
    px

/-- `SteganographyLSB.encode` after encryption: the capacity check
(lines 52-56, `required_pixels > total_pixels` raises `ValueError`)
precedes the embedding loop and the save; on failure no pixel is
modified and no output is produced. -/
def simpleLSBEncode (cipher : List ℕ) (W H : ℕ) (px : ℕ → BGR) :
    Except Unit (ℕ → BGR) :=
  if W * H < cipher.length * 3 then Except.error ()
  else Except.ok (simpleLSBEmbedAll cipher px)

/-! ## RS analysis (`steganalysis.py` lines 19-153) -/

/-- The non-overlapping groups of `mask_size` consecutive pixels visited
by `range(0, len(pixels) - mask_size + 1, mask_size)`. -/
def rsGroups (m : ℕ) (l : List ℕ) : List (List ℕ) :=
  if h : 0 < m ∧ m ≤ l.length then l.take m :: rsGroups m (l.drop m) else []
termination_by l.length
decreasing_by
  simp only [List.length_drop]
  omega

/-- `_calculate_smoothness`: `np.sum(np.abs(np.diff(group)))`. -/
def smoothness (g : List ℕ) : ℕ :=
  (List.zipWith (fun a b => ((b : ℤ) - (a : ℤ)).natAbs) g g.tail).sum

/-- `_apply_mask_positive`: flip the LSB of every element. -/
def maskPos (g : List ℕ) : List ℕ := g.map (· ^^^ 1)

/-- `_apply_mask_negative`: flip the LSB of even-indexed elements only. -/
def maskNeg (g : List ℕ) : List ℕ :=
  List.mapIdx (fun i v => if i % 2 = 0 then v ^^^ 1 else v) g

/-- The R / S / U classification of `_classify_group`. -/
inductive RSClass where
  | R : RSClass
  | S : RSClass
  | U : RSClass
deriving DecidableEq

/-- `_classify_group`: S when masking roughens, R when it smooths,
U otherwise. -/
def classifyGroup (g masked : List ℕ) : RSClass :=
  if smoothness g < smoothness masked then RSClass.S
  else if smoothness masked < smoothness g then RSClass.R
  else RSClass.U

/-- The counting loop of `RSAnalysis.analyze` (lines 99-120):
`(RM, SM, RN, SN, total_groups)`. -/
def rsCounts (m : ℕ) (pixels : List ℕ) : ℕ × ℕ × ℕ × ℕ × ℕ :=
  (rsGroups m pixels).foldl
    (fun st g =>
      (st.1 + (if classifyGroup g (maskPos g) = RSClass.R then 1 else 0),
       st.2.1 + (if classifyGroup g (maskPos g) = RSClass.S then 1 else 0),
       st.2.2.1 + (if classifyGroup g (maskNeg g) = RSClass.R then 1 else 0),
       st.2.2.2.1 + (if classifyGroup g (maskNeg g) = RSClass.S then 1 else 0),
       st.2.2.2.2 + 1))
    (0, 0, 0, 0, 0)

/-- The quantities reported by `RSAnalysis.analyze`. -/
structure RSResult where
  rmN : ℚ
  smN : ℚ
  rnN : ℚ
  snN : ℚ
  dR : ℚ
  dS : ℚ
  rate : ℚ
  detected : Bool
  totalGroups : ℕ

/-- `RSAnalysis.analyze` (lines 122-153) after loading: normalize the
counts by `total_groups`, report `d_R`, `d_S`, the estimated embedding
rate (`|d_R| / (|d_R| + |d_S|)` when the denominator exceeds `0.001`,
else 0), and the detection flag `embedding_rate > 0.1`. -/
def rsAnalyze (m : ℕ) (pixels : List ℕ) : RSResult :=
  let c := rsCounts m pixels
  let g := c.2.2.2.2
  let rmN : ℚ := if 0 < g then (c.1 : ℚ) / g else 0
  let smN : ℚ := if 0 < g then (c.2.1 : ℚ) / g else 0
  let rnN : ℚ := if 0 < g then (c.2.2.1 : ℚ) / g else 0
  let snN : ℚ := if 0 < g then (c.2.2.2.1 : ℚ) / g else 0
  let dR := rmN - rnN
  let dS := smN - snN
  let rate : ℚ := if 1 / 1000 < |dR| + |dS| then |dR| / (|dR| + |dS|) else 0
  { rmN := rmN, smN := smN, rnN := rnN, snN := snN, dR := dR, dS := dS,
    rate := rate, detected := decide (1 / 10 < rate), totalGroups := g }

/-- Declarative group count: the number of groups whose
positively/negatively masked classification is `cls`. -/
def rsCountClass (m : ℕ) (pixels : List ℕ) (pos : Bool) (cls : RSClass) : ℕ :=
  (rsGroups m pixels).countP
    (fun g => classifyGroup g (if pos then maskPos g else maskNeg g) = cls)

/-! ## Payload reassembly in `decode` (`adaptive_stego.py` lines 354-392) -/

/-- Lines 377-380: append a pair's extracted bits while fewer than
`payload_len` bits have been collected. -/
def appendLimited (plen : ℕ) (acc : List ℕ) (bits : List ℕ) : List ℕ :=
  bits.foldl (fun a b => if a.length < plen then a ++ [b] else a) acc

/-- Lines 384-392: pack each full group of 8 extracted bits into a byte;
a trailing group of fewer than 8 bits is dropped. -/
def decodeBitsToBytes (l : List ℕ) : List ℕ :=
  if 8 ≤ l.length then bitsVal (l.take 8) :: decodeBitsToBytes (l.drop 8) else []
termination_by l.length
decreasing_by
  simp only [List.length_drop]
  omega

section PairLemmas

/-- Single-bit write `(p & 0xFD) | (b << 1)`: the pixel changes only in
bit 1, bit 7 is untouched and so is bit 0. -/
lemma write_bit1_facts : ∀ p < 256, ∀ b < 2,
    ((((p &&& 0b11111101) ||| (b <<< 1)) ^^^ p) &&& 0x80 = 0) ∧
    ((((p &&& 0b11111101) ||| (b <<< 1)) ^^^ p) ||| 2 = 2) ∧
    ((((p &&& 0b11111101) ||| (b <<< 1)) >>> 7) &&& 1 = (p >>> 7) &&& 1) ∧
    ((((p &&& 0b11111101) ||| (b <<< 1)) ^^^ p) &&& 1 = 0) := by decide

/-- Two-bit write `(p & 0xF3) | (b0 << 2) | (b1 << 3)`: the pixel changes
only in bits 2 and 3, bit 7 is untouched and so is bit 0. -/
lemma write_bits23_facts : ∀ p < 256, ∀ b0 < 2, ∀ b1 < 2,
    ((((p &&& 0b11110011) ||| (b0 <<< 2) ||| (b1 <<< 3)) ^^^ p) &&& 0x80 = 0) ∧
    ((((p &&& 0b11110011) ||| (b0 <<< 2) ||| (b1 <<< 3)) ^^^ p) ||| 12 = 12) ∧
    ((((p &&& 0b11110011) ||| (b0 <<< 2) ||| (b1 <<< 3)) >>> 7) &&& 1
        = (p >>> 7) &&& 1) ∧
    ((((p &&& 0b11110011) ||| (b0 <<< 2) ||| (b1 <<< 3)) ^^^ p) &&& 1 = 0) := by
  decide

/-- The case classification only looks at the MSBs. -/
lemma getEmbeddingCase_congr {p1 p2 q1 q2 : ℕ}
    (h1 : (q1 >>> 7) &&& 1 = (p1 >>> 7) &&& 1)
    (h2 : (q2 >>> 7) &&& 1 = (p2 >>> 7) &&& 1) :
    getEmbeddingCase q1 q2 = getEmbeddingCase p1 p2 := by
  unfold getEmbeddingCase
  rw [h1, h2]

/-- The case classification always lands in {0, 1, 2, 3}. -/
lemma getEmbeddingCase_mem (p1 p2 : ℕ) :
    getEmbeddingCase p1 p2 = 0 ∨ getEmbeddingCase p1 p2 = 1 ∨
    getEmbeddingCase p1 p2 = 2 ∨ getEmbeddingCase p1 p2 = 3 := by
  unfold getEmbeddingCase
  split_ifs <;> simp

/-- If fewer bits than the case's budget are supplied,
`_embed_bits_in_pixel_pair` returns both pixels unchanged. -/
lemma embed_short_unchanged (p1 p2 : ℕ) (bits : List ℕ)
    (h : bits.length < caseBits (getEmbeddingCase p1 p2)) :
    embedBitsInPixelPair p1 p2 bits = (p1, p2) := by
  unfold embedBitsInPixelPair
  rcases getEmbeddingCase_mem p1 p2 with hc | hc | hc | hc <;>
    simp only [hc, caseBits, List.getD] at h ⊢ <;> simp_all

lemma getD_le_one {bits : List ℕ} (hb : ∀ b ∈ bits, b ≤ 1) {i : ℕ}
    (hi : i < bits.length) : bits.getD i 0 < 2 := by
  have : bits.getD i 0 ∈ bits := by
    rw [List.getD_eq_getElem bits 0 hi]
    exact List.getElem_mem hi
  have := hb _ this
  omega

end PairLemmas

/-! ## Claims C3 and C4 -/

/-- C3, counterexample.  The claim says that when the remaining payload is
shorter than the pair's case bit budget, the embedder performs a partial
write of exactly the remaining bits into the listed target positions.  At
the concrete input `p1 = p2 = 0` (case 0, budget 2) with a single
remaining bit `[1]`, the code's `_embed_bits_in_pixel_pair` returns the
pixels unchanged, while the claimed partial write would set bit 1 of
`p1`; the two disagree. -/
theorem partial_write_mismatch :
    embedBitsInPixelPair 0 0 [1] ≠ partialWriteSpec 0 0 [1] := by decide

/-- C3, amended.  When fewer bits than the pair's case bit budget remain,
`_embed_bits_in_pixel_pair` writes nothing at all: both pixels are
returned unchanged, and the leftover bits are silently dropped rather
than partially written. -/
theorem partial_budget_leaves_pixels_unchanged (p1 p2 : ℕ) (bits : List ℕ)
    (h : bits.length < caseBits (getEmbeddingCase p1 p2)) :
    embedBitsInPixelPair p1 p2 bits = (p1, p2) :=
  embed_short_unchanged p1 p2 bits h

/-- Witness for C3's amended theorem at `p1 = p2 = 0`, `bits = [1]`. -/
theorem partial_budget_leaves_pixels_unchanged_witness :
    [1].length < caseBits (getEmbeddingCase 0 0) ∧
    embedBitsInPixelPair 0 0 [1] = (0, 0) :=
  ⟨by decide, partial_budget_leaves_pixels_unchanged 0 0 [1] (by decide)⟩

/-- C4.  For `uint8` pixels and payload bits in {0, 1}, a pixel-pair write
by `_embed_bits_in_pixel_pair` never flips the MSB of either pixel
(`(stego ⊕ cover) & 0x80 = 0`), changes only the bit positions designated
by the pair's case (bit 1 and/or bits 2, 3), preserves the case
classification recomputed from the modified pixels, and preserves bit 0
of both pixels.  (Header cells in row 0 are written by a separate
LSB-only header pass, outside this function.) -/
theorem embed_preserves_msb_case_and_lsb (p1 p2 : ℕ) (bits : List ℕ)
    (hp1 : p1 < 256) (hp2 : p2 < 256) (hb : ∀ b ∈ bits, b ≤ 1) :
    (((embedBitsInPixelPair p1 p2 bits).1 ^^^ p1) &&& 0x80 = 0) ∧
    (((embedBitsInPixelPair p1 p2 bits).2 ^^^ p2) &&& 0x80 = 0) ∧
    (((embedBitsInPixelPair p1 p2 bits).1 ^^^ p1) |||
        allowedMaskP1 (getEmbeddingCase p1 p2)
      = allowedMaskP1 (getEmbeddingCase p1 p2)) ∧
    (((embedBitsInPixelPair p1 p2 bits).2 ^^^ p2) |||
        allowedMaskP2 (getEmbeddingCase p1 p2)
      = allowedMaskP2 (getEmbeddingCase p1 p2)) ∧
    (getEmbeddingCase (embedBitsInPixelPair p1 p2 bits).1
        (embedBitsInPixelPair p1 p2 bits).2 = getEmbeddingCase p1 p2) ∧
    (((embedBitsInPixelPair p1 p2 bits).1 ^^^ p1) &&& 1 = 0) ∧
    (((embedBitsInPixelPair p1 p2 bits).2 ^^^ p2) &&& 1 = 0) := by
  rcases getEmbeddingCase_mem p1 p2 with hc | hc | hc | hc
  · by_cases hlen : 2 ≤ bits.length
    · have he : embedBitsInPixelPair p1 p2 bits =
          ((p1 &&& 0b11111101) ||| (bits.getD 0 0 <<< 1),
           (p2 &&& 0b11111101) ||| (bits.getD 1 0 <<< 1)) := by
        simp [embedBitsInPixelPair, hc, hlen]
      have hb0 : bits.getD 0 0 < 2 := getD_le_one hb (by omega)
      have hb1 : bits.getD 1 0 < 2 := getD_le_one hb (by omega)
      obtain ⟨f1, f2, f3, f4⟩ := write_bit1_facts p1 hp1 _ hb0
      obtain ⟨g1, g2, g3, g4⟩ := write_bit1_facts p2 hp2 _ hb1
      rw [he, hc]
      exact ⟨f1, g1, f2, g2, getEmbeddingCase_congr f3 g3 |>.trans hc, f4, g4⟩
    · have he := embed_short_unchanged p1 p2 bits
        (by rw [hc, show caseBits 0 = 2 from rfl]; omega)
      rw [he]
      simp [hc, allowedMaskP1, allowedMaskP2]
  · by_cases hlen : 3 ≤ bits.length
    · have he : embedBitsInPixelPair p1 p2 bits =
          ((p1 &&& 0b11110011) ||| (bits.getD 0 0 <<< 2) |||
              (bits.getD 1 0 <<< 3),
           (p2 &&& 0b11111101) ||| (bits.getD 2 0 <<< 1)) := by
        simp [embedBitsInPixelPair, hc, hlen]
      have hb0 : bits.getD 0 0 < 2 := getD_le_one hb (by omega)
      have hb1 : bits.getD 1 0 < 2 := getD_le_one hb (by omega)
      have hb2 : bits.getD 2 0 < 2 := getD_le_one hb (by omega)
      obtain ⟨f1, f2, f3, f4⟩ := write_bits23_facts p1 hp1 _ hb0 _ hb1
      obtain ⟨g1, g2, g3, g4⟩ := write_bit1_facts p2 hp2 _ hb2
      rw [he, hc]
      exact ⟨f1, g1, f2, g2, getEmbeddingCase_congr f3 g3 |>.trans hc, f4, g4⟩
    · have he := embed_short_unchanged p1 p2 bits
        (by rw [hc, show caseBits 1 = 3 from rfl]; omega)
      rw [he]
      simp [hc, allowedMaskP1, allowedMaskP2]
  · by_cases hlen : 3 ≤ bits.length
    · have he : embedBitsInPixelPair p1 p2 bits =
          ((p1 &&& 0b11111101) ||| (bits.getD 0 0 <<< 1),
           (p2 &&& 0b11110011) ||| (bits.getD 1 0 <<< 2) |||
              (bits.getD 2 0 <<< 3)) := by
        simp [embedBitsInPixelPair, hc, hlen]
      have hb0 : bits.getD 0 0 < 2 := getD_le_one hb (by omega)
      have hb1 : bits.getD 1 0 < 2 := getD_le_one hb (by omega)
      have hb2 : bits.getD 2 0 < 2 := getD_le_one hb (by omega)
      obtain ⟨f1, f2, f3, f4⟩ := write_bit1_facts p1 hp1 _ hb0
      obtain ⟨g1, g2, g3, g4⟩ := write_bits23_facts p2 hp2 _ hb1 _ hb2
      rw [he, hc]
      exact ⟨f1, g1, f2, g2, getEmbeddingCase_congr f3 g3 |>.trans hc, f4, g4⟩
    · have he := embed_short_unchanged p1 p2 bits
        (by rw [hc, show caseBits 2 = 3 from rfl]; omega)
      rw [he]
      simp [hc, allowedMaskP1, allowedMaskP2]
  · by_cases hlen : 4 ≤ bits.length
    · have he : embedBitsInPixelPair p1 p2 bits =
          ((p1 &&& 0b11110011) ||| (bits.getD 0 0 <<< 2) |||
              (bits.getD 1 0 <<< 3),
           (p2 &&& 0b11110011) ||| (bits.getD 2 0 <<< 2) |||
              (bits.getD 3 0 <<< 3)) := by
        simp [embedBitsInPixelPair, hc, hlen]
      have hb0 : bits.getD 0 0 < 2 := getD_le_one hb (by omega)
      have hb1 : bits.getD 1 0 < 2 := getD_le_one hb (by omega)
      have hb2 : bits.getD 2 0 < 2 := getD_le_one hb (by omega)
      have hb3 : bits.getD 3 0 < 2 := getD_le_one hb (by omega)
      obtain ⟨f1, f2, f3, f4⟩ := write_bits23_facts p1 hp1 _ hb0 _ hb1
      obtain ⟨g1, g2, g3, g4⟩ := write_bits23_facts p2 hp2 _ hb2 _ hb3
      rw [he, hc]
      exact ⟨f1, g1, f2, g2, getEmbeddingCase_congr f3 g3 |>.trans hc, f4, g4⟩
    · have he := embed_short_unchanged p1 p2 bits
        (by rw [hc, show caseBits 3 = 4 from rfl]; omega)
      rw [he]
      simp [hc, allowedMaskP1, allowedMaskP2]

/-- Witness for C4 at `p1 = 200` (MSB 1), `p2 = 100` (MSB 0), a case-1
pair, with three payload bits `[1, 0, 1]`. -/
theorem embed_preserves_msb_case_and_lsb_witness :
    (200 : ℕ) < 256 ∧ (100 : ℕ) < 256 ∧
    (∀ b ∈ [1, 0, 1], b ≤ 1) ∧
    getEmbeddingCase (embedBitsInPixelPair 200 100 [1, 0, 1]).1
      (embedBitsInPixelPair 200 100 [1, 0, 1]).2 = getEmbeddingCase 200 100 :=
  ⟨by decide, by decide, by decide,
    (embed_preserves_msb_case_and_lsb 200 100 [1, 0, 1] (by decide) (by decide)
      (by decide)).2.2.2.2.1⟩

/-! ## Claim C2: LSB-stability of the Sobel gradient maps -/

section GradientLemmas

/-- For dimensions at least 2 and Sobel-sized offsets, reflect-101 lands
inside the image. -/
lemma refl101_lt {n : ℕ} (hn : 2 ≤ n) {y : ℕ} (hy : y < n) {d : ℤ}
    (hd : d = -1 ∨ d = 0 ∨ d = 1) : refl101 n ((y : ℤ) + d) < n := by
  unfold refl101
  rcases hd with rfl | rfl | rfl <;> split_ifs <;> omega

lemma sobelKxEntries_offsets : ∀ e ∈ sobelKxEntries,
    (e.1 = -1 ∨ e.1 = 0 ∨ e.1 = 1) ∧ (e.2.1 = -1 ∨ e.2.1 = 0 ∨ e.2.1 = 1) := by
  decide

lemma sobelKyEntries_offsets : ∀ e ∈ sobelKyEntries,
    (e.1 = -1 ∨ e.1 = 0 ∨ e.1 = 1) ∧ (e.2.1 = -1 ∨ e.2.1 = 0 ∨ e.2.1 = 1) := by
  decide

/-- The squared Sobel magnitude only depends on in-bounds gray values. -/
lemma gradSq_congr {g1 g2 : ℕ → ℕ → ℕ} {h w : ℕ} (hh : 2 ≤ h) (hw : 2 ≤ w)
    (hg : ∀ y < h, ∀ x < w, g1 y x = g2 y x) {y x : ℕ} (hy : y < h) (hx : x < w) :
    gradSq g1 h w y x = gradSq g2 h w y x := by
  unfold gradSq sobelGx sobelGy
  congr 2
  · apply congrArg List.sum
    apply List.map_congr_left
    intro e he
    obtain ⟨h1, h2⟩ := sobelKxEntries_offsets e he
    rw [hg _ (refl101_lt hh hy h1) _ (refl101_lt hw hx h2)]
  · apply congrArg List.sum
    apply List.map_congr_left
    intro e he
    obtain ⟨h1, h2⟩ := sobelKyEntries_offsets e he
    rw [hg _ (refl101_lt hh hy h1) _ (refl101_lt hw hx h2)]

/-- XOR-ing in a value confined to bit 0 does not change the `& 0xFE`
masked copy of a sample. -/
lemma xor_lsb_and_FE (v m : ℕ) (hm : m ≤ 1) : (v ^^^ m) &&& 0xFE = v &&& 0xFE := by
  interval_cases m
  · simp
  · apply Nat.eq_of_testBit_eq
    intro i
    simp only [Nat.testBit_and, Nat.testBit_xor]
    cases i with
    | zero =>
        have : Nat.testBit 0xFE 0 = false := by decide
        simp [this]
    | succ i =>
        have : Nat.testBit 1 (i + 1) = false :=
          Nat.testBit_lt_two_pow (by exact Nat.one_lt_two_pow (by omega))
        simp [this]

/-- Per-pixel form: masking with `0xFE` after an LSB-confined XOR gives
the original masked pixel. -/
lemma maskFE_xor (c m : BGR) (hm : m.1 ≤ 1 ∧ m.2.1 ≤ 1 ∧ m.2.2 ≤ 1) :
    maskFE (c.1 ^^^ m.1, c.2.1 ^^^ m.2.1, c.2.2 ^^^ m.2.2) = maskFE c := by
  unfold maskFE
  obtain ⟨h1, h2, h3⟩ := hm
  rw [xor_lsb_and_FE _ _ h1, xor_lsb_and_FE _ _ h2, xor_lsb_and_FE _ _ h3]

end GradientLemmas

/-- C2, counterexample.  The claim asserts that for every image `I` and
every mask confined to bit 0, `GradientMap(I) = GradientMap(I ^ mask)`
"because every sample is masked with 0xFE before grayscale conversion and
the Sobel filter".  `AdaptiveSteganography._compute_edge_map` performs no
such masking: on the 4×4 zero image with a bit-0 mask set only at pixel
(2,2), the gradient at pixel (1,2) changes from `√0 = 0` to `√4 = 2`. -/
theorem adaptive_edge_map_not_lsb_stable :
    ¬ (∀ img mask : ℕ → ℕ → ℕ, (∀ y x, mask y x ≤ 1) →
        ∀ y x, adaptiveEdgeMapGray (xorImgGray img mask) 4 4 y x
          = adaptiveEdgeMapGray img 4 4 y x) := by
  intro hcl
  have hm : ∀ y x : ℕ,
      (fun y x : ℕ => if y = 2 ∧ x = 2 then 1 else 0) y x ≤ 1 := by
    intro y x
    dsimp only
    split <;> omega
  have h12 := hcl (fun _ _ => 0) (fun y x => if y = 2 ∧ x = 2 then 1 else 0) hm 1 2
  unfold adaptiveEdgeMapGray at h12
  rw [show gradSq (xorImgGray (fun _ _ => 0)
        (fun y x => if y = 2 ∧ x = 2 then 1 else 0)) 4 4 1 2 = 4 from by decide,
      show gradSq (fun _ _ => 0) 4 4 1 2 = 0 from by decide] at h12
  have h4 : Real.sqrt ((4 : ℤ) : ℝ) = 2 := by
    rw [show ((4 : ℤ) : ℝ) = (2 : ℝ) ^ 2 by norm_num]
    exact Real.sqrt_sq (by norm_num)
  have h0 : Real.sqrt ((0 : ℤ) : ℝ) = 0 := by
    norm_num
  rw [h4, h0] at h12
  norm_num at h12

/-- C2, amended.  The LSB-stability property holds for the gradient map
that actually masks: `EdgeAdaptiveLSB.compute_sobel_gradient` ANDs every
channel with `0xFE` before grayscale conversion and the Sobel filter, so
XOR-ing any mask confined to bit 0 of any channel leaves its gradient map
unchanged.  (`AdaptiveSteganography._compute_edge_map` does no masking
and is not LSB-stable; see the counterexample.) -/
theorem enhanced_sobel_lsb_stable (img mask : ℕ → ℕ → BGR) (h w : ℕ)
    (hh : 2 ≤ h) (hw : 2 ≤ w)
    (hm : ∀ y < h, ∀ x < w,
      (mask y x).1 ≤ 1 ∧ (mask y x).2.1 ≤ 1 ∧ (mask y x).2.2 ≤ 1) :
    ∀ y < h, ∀ x < w,
      enhancedEdgeMap (xorImg3 img mask) h w y x = enhancedEdgeMap img h w y x := by
  intro y hy x hx
  unfold enhancedEdgeMap
  have hg : ∀ y' < h, ∀ x' < w,
      bgr2gray (maskFE (xorImg3 img mask y' x')) = bgr2gray (maskFE (img y' x')) := by
    intro y' hy' x' hx'
    unfold xorImg3
    rw [maskFE_xor _ _ (hm y' hy' x' hx')]
  rw [gradSq_congr hh hw hg hy hx]

/-- Witness for C2's amended theorem: a 2×2 constant color image with the
constant bit-0 mask `(1, 0, 1)`. -/
theorem enhanced_sobel_lsb_stable_witness :
    (2 ≤ 2) ∧ (2 ≤ 2) ∧
    (∀ y < 2, ∀ x < 2,
      ((fun (_ _ : ℕ) => ((1, 0, 1) : BGR)) y x).1 ≤ 1 ∧
      ((fun (_ _ : ℕ) => ((1, 0, 1) : BGR)) y x).2.1 ≤ 1 ∧
      ((fun (_ _ : ℕ) => ((1, 0, 1) : BGR)) y x).2.2 ≤ 1) ∧
    (∀ y < 2, ∀ x < 2,
      enhancedEdgeMap (xorImg3 (fun _ _ => ((7, 8, 9) : BGR))
          (fun _ _ => ((1, 0, 1) : BGR))) 2 2 y x
        = enhancedEdgeMap (fun _ _ => ((7, 8, 9) : BGR)) 2 2 y x) :=
  ⟨by norm_num, by norm_num, by decide,
    enhanced_sobel_lsb_stable (fun _ _ => ((7, 8, 9) : BGR))
      (fun _ _ => ((1, 0, 1) : BGR)) 2 2 (by norm_num) (by norm_num) (by decide)⟩

/-! ## Claim C5: header round-trip -/

section HeaderLemmas

lemma bitsVal_append (l : List ℕ) (b : ℕ) :
    bitsVal (l ++ [b]) = 2 * bitsVal l + b := by
  unfold bitsVal
  rw [List.foldl_append]
  rfl

lemma bitsMSB_succ (k n : ℕ) : bitsMSB (k + 1) n = bitsMSB k (n / 2) ++ [n % 2] := by
  unfold bitsMSB
  rw [List.range_succ, List.map_append]
  congr 1
  · apply List.map_congr_left
    intro i hi
    have hik : i < k := List.mem_range.mp hi
    rw [show k + 1 - 1 - i = (k - 1 - i) + 1 from by omega, pow_succ,
      Nat.div_div_eq_div_mul, Nat.mul_comm]
  · simp

/-- Writing `format(n, '0kb')` and reading it back with `int(·, 2)`
recovers `n` whenever `n < 2^k`. -/
lemma bitsVal_bitsMSB : ∀ {k n : ℕ}, n < 2 ^ k → bitsVal (bitsMSB k n) = n := by
  intro k
  induction k with
  | zero =>
      intro n hn
      interval_cases n
      rfl
  | succ k ih =>
      intro n hn
      have h2 : 2 ^ (k + 1) = 2 * 2 ^ k := by ring
      rw [bitsMSB_succ, bitsVal_append, ih (by omega)]
      omega

/-- Every entry of `bitsMSB` is a bit. -/
lemma bitsMSB_mem_le {k n b : ℕ} (hb : b ∈ bitsMSB k n) : b ≤ 1 := by
  unfold bitsMSB at hb
  obtain ⟨j, _, rfl⟩ := List.mem_map.mp hb
  have := Nat.mod_lt (n / 2 ^ (k - 1 - j)) (show 0 < 2 by omega)
  omega

/-- Each header bit is below 2. -/
lemma bitsMSB_getD_le (k n i : ℕ) : (bitsMSB k n).getD i 0 ≤ 1 := by
  by_cases hi : i < (bitsMSB k n).length
  · rw [List.getD_eq_getElem _ 0 hi]
    exact bitsMSB_mem_le (List.getElem_mem hi)
  · rw [List.getD_eq_default _ 0 (by omega)]
    omega

/-- Reading a list of length `k` back element-wise by index gives the
list. -/
lemma map_range_getD_of_length {l : List ℕ} {k : ℕ} (hk : l.length = k) :
    (List.range k).map (fun i => l.getD i 0) = l := by
  subst hk
  apply List.ext_getElem
  · simp
  · intro i h1 h2
    simp only [List.getElem_map, List.getElem_range]
    rw [List.getD_eq_getElem _ 0 h2]

/-- An LSB-write `(v & 0xFE) | b` stores exactly the bit `b`. -/
lemma maskedOr_and_one (v b : ℕ) (hb : b ≤ 1) : ((v &&& 0xFE) ||| b) &&& 1 = b := by
  apply Nat.eq_of_testBit_eq
  intro i
  simp only [Nat.testBit_and, Nat.testBit_or]
  cases i with
  | zero =>
      have hFE : Nat.testBit 0xFE 0 = false := by decide
      have h1 : Nat.testBit 1 0 = true := by decide
      simp [hFE, h1]
  | succ i =>
      have h1 : Nat.testBit 1 (i + 1) = false :=
        Nat.testBit_lt_two_pow (Nat.one_lt_two_pow (by omega))
      have hb' : Nat.testBit b (i + 1) = false :=
        Nat.testBit_lt_two_pow (by
          calc b ≤ 1 := hb
          _ < 2 ^ (i + 1) := Nat.one_lt_two_pow (by omega))
      simp [h1, hb']

/-- Bit 0 is untouched by the single-bit pair write. -/
lemma write_bit1_preserves_bit0 (p b : ℕ) :
    ((p &&& 0b11111101) ||| (b <<< 1)) &&& 1 = p &&& 1 := by
  apply Nat.eq_of_testBit_eq
  intro i
  simp only [Nat.testBit_and, Nat.testBit_or, Nat.testBit_shiftLeft]
  cases i with
  | zero =>
      have hm : Nat.testBit 0b11111101 0 = true := by decide
      have h1 : Nat.testBit 1 0 = true := by decide
      simp [hm, h1]
  | succ i =>
      have h1 : Nat.testBit 1 (i + 1) = false :=
        Nat.testBit_lt_two_pow (Nat.one_lt_two_pow (by omega))
      simp [h1]

/-- Bit 0 is untouched by the two-bit pair write. -/
lemma write_bits23_preserves_bit0 (p b0 b1 : ℕ) :
    ((p &&& 0b11110011) ||| (b0 <<< 2) ||| (b1 <<< 3)) &&& 1 = p &&& 1 := by
  apply Nat.eq_of_testBit_eq
  intro i
  simp only [Nat.testBit_and, Nat.testBit_or, Nat.testBit_shiftLeft]
  cases i with
  | zero =>
      have hm : Nat.testBit 0b11110011 0 = true := by decide
      have h1 : Nat.testBit 1 0 = true := by decide
      simp [hm, h1]
  | succ i =>
      have h1 : Nat.testBit 1 (i + 1) = false :=
        Nat.testBit_lt_two_pow (Nat.one_lt_two_pow (by omega))
      simp [h1]

/-- Every payload-pass pixel write keeps bit 0 (the LSB) of both pixels,
for arbitrary pixel values and bit lists. -/
lemma embed_preserves_lsb (p1 p2 : ℕ) (bits : List ℕ) :
    (embedBitsInPixelPair p1 p2 bits).1 &&& 1 = p1 &&& 1 ∧
    (embedBitsInPixelPair p1 p2 bits).2 &&& 1 = p2 &&& 1 := by
  unfold embedBitsInPixelPair
  rcases getEmbeddingCase_mem p1 p2 with hc | hc | hc | hc <;>
    simp only [hc] <;> split_ifs <;>
      first
        | exact ⟨rfl, rfl⟩
        | exact ⟨write_bit1_preserves_bit0 _ _, write_bit1_preserves_bit0 _ _⟩
        | exact ⟨write_bits23_preserves_bit0 _ _ _, write_bit1_preserves_bit0 _ _⟩
        | exact ⟨write_bit1_preserves_bit0 _ _, write_bits23_preserves_bit0 _ _ _⟩
        | exact ⟨write_bits23_preserves_bit0 _ _ _, write_bits23_preserves_bit0 _ _ _⟩

end HeaderLemmas

/-- C5.  The payload-embedding pass writes pixels only through
`_embed_bits_in_pixel_pair`, which never changes bit 0 of any pixel
(first conjunct); consequently, for any row-0 contents `row'` that agree
on the LSBs of columns 0..47 with what the header pass wrote, the decoder
reads back exactly the UB, LB, and payload-length values the encoder
wrote (second conjunct). -/
theorem header_roundtrip (row row' : ℕ → ℕ) (ub lb plen : ℕ)
    (hub : ub < 256) (hlb : lb < 256) (hplen : plen < 2 ^ 32)
    (hrow : ∀ i < 48, row' i &&& 1 = headerWriteRow row ub lb plen i &&& 1) :
    (∀ q1 q2 bs, (embedBitsInPixelPair q1 q2 bs).1 &&& 1 = q1 &&& 1 ∧
       (embedBitsInPixelPair q1 q2 bs).2 &&& 1 = q2 &&& 1) ∧
    decodeHeaderRow row' = (ub, lb, plen) := by
  refine ⟨fun q1 q2 bs => embed_preserves_lsb q1 q2 bs, ?_⟩
  unfold decodeHeaderRow
  have hub' : bitsVal ((List.range 8).map (fun i => row' i &&& 1)) = ub := by
    have : (List.range 8).map (fun i => row' i &&& 1)
        = (List.range 8).map (fun i => (bitsMSB 8 ub).getD i 0) := by
      apply List.map_congr_left
      intro i hi
      have hi8 : i < 8 := List.mem_range.mp hi
      rw [hrow i (by omega)]
      unfold headerWriteRow
      rw [if_pos hi8]
      exact maskedOr_and_one _ _ (bitsMSB_getD_le 8 ub i)
    rw [this, map_range_getD_of_length (by simp [bitsMSB]),
      bitsVal_bitsMSB (by omega)]
  have hlb' : bitsVal ((List.range 8).map (fun i => row' (i + 8) &&& 1)) = lb := by
    have : (List.range 8).map (fun i => row' (i + 8) &&& 1)
        = (List.range 8).map (fun i => (bitsMSB 8 lb).getD i 0) := by
      apply List.map_congr_left
      intro i hi
      have hi8 : i < 8 := List.mem_range.mp hi
      rw [hrow (i + 8) (by omega)]
      unfold headerWriteRow
      rw [if_neg (by omega), if_pos (by omega),
        show i + 8 - 8 = i from by omega]
      exact maskedOr_and_one _ _ (bitsMSB_getD_le 8 lb i)
    rw [this, map_range_getD_of_length (by simp [bitsMSB]),
      bitsVal_bitsMSB (by omega)]
  have hplen' : bitsVal ((List.range 32).map (fun i => row' (i + 16) &&& 1)) = plen := by
    have : (List.range 32).map (fun i => row' (i + 16) &&& 1)
        = (List.range 32).map (fun i => (bitsMSB 32 plen).getD i 0) := by
      apply List.map_congr_left
      intro i hi
      have hi32 : i < 32 := List.mem_range.mp hi
      rw [hrow (i + 16) (by omega)]
      unfold headerWriteRow
      rw [if_neg (by omega), if_neg (by omega), if_pos (by omega),
        show i + 16 - 16 = i from by omega]
      exact maskedOr_and_one _ _ (bitsMSB_getD_le 32 plen i)
    rw [this, map_range_getD_of_length (by simp [bitsMSB]),
      bitsVal_bitsMSB hplen]
  rw [hub', hlb', hplen']

/-- Witness for C5: the constant row `7`, `UB = 3`, `LB = 1`,
`PayloadLength = 1000`, with the unmodified header row as `row'`. -/
theorem header_roundtrip_witness :
    (3 : ℕ) < 256 ∧ (1 : ℕ) < 256 ∧ (1000 : ℕ) < 2 ^ 32 ∧
    decodeHeaderRow (headerWriteRow (fun _ => 7) 3 1 1000) = (3, 1, 1000) :=
  ⟨by norm_num, by norm_num, by norm_num,
    (header_roundtrip (fun _ => 7) (headerWriteRow (fun _ => 7) 3 1 1000) 3 1 1000
      (by norm_num) (by norm_num) (by norm_num) (fun i _ => rfl)).2⟩

/-! ## Claim C8: the simple-LSB capacity check -/

/-- C8.  `SteganographyLSB.encode` raises its capacity `ValueError` if
and only if `3 · N_chars > W · H`; the check precedes the embedding loop,
so on failure the pixel buffer is not touched and no output is produced
(the error branch carries no image), and otherwise the embedding loop
runs on the untouched input pixels. -/
theorem simple_lsb_capacity_check (cipher : List ℕ) (W H : ℕ) (px : ℕ → BGR) :
    ((∃ e, simpleLSBEncode cipher W H px = Except.error e) ↔
      3 * cipher.length > W * H) ∧
    (3 * cipher.length > W * H → simpleLSBEncode cipher W H px = Except.error ()) ∧
    (¬ 3 * cipher.length > W * H →
      simpleLSBEncode cipher W H px = Except.ok (simpleLSBEmbedAll cipher px)) := by
  unfold simpleLSBEncode
  by_cases hcap : W * H < cipher.length * 3
  · rw [if_pos hcap]
    exact ⟨⟨fun _ => by omega, fun _ => ⟨(), rfl⟩⟩, fun _ => rfl,
      fun hn => absurd (by omega) hn⟩
  · rw [if_neg hcap]
    refine ⟨⟨?_, fun hgt => absurd (by omega) hcap⟩,
      fun hgt => absurd (by omega) hcap, fun _ => rfl⟩
    rintro ⟨e, he⟩
    exact Except.noConfusion he

/-! ## Claim C10: decode's byte packing -/

section DecodeTailLemmas

lemma appendLimited_length_le (plen : ℕ) (bits : List ℕ) :
    ∀ acc : List ℕ, acc.length ≤ plen → (appendLimited plen acc bits).length ≤ plen := by
  induction bits with
  | nil =>
      intro acc h
      simpa [appendLimited] using h
  | cons b bs ih =>
      intro acc h
      simp only [appendLimited, List.foldl_cons] at *
      apply ih
      split_ifs with hlt
      · simpa using hlt
      · exact h

end DecodeTailLemmas

/-- C10.  The bit collector of `decode` never gathers more than
`PayloadLength` bits (first conjunct); the final packing loop returns
exactly `⌊n/8⌋` bytes for `n` collected bits (second conjunct); and a
trailing group of fewer than 8 bits never influences the output — the
bytes are those of the first `8·⌊n/8⌋` bits (third conjunct). -/
theorem decode_drops_trailing_partial_byte :
    (∀ plen : ℕ, ∀ groups : List (List ℕ),
      ((groups.foldl (appendLimited plen) []).length ≤ plen)) ∧
    (∀ l : List ℕ, (decodeBitsToBytes l).length = l.length / 8) ∧
    (∀ l : List ℕ, decodeBitsToBytes l
      = decodeBitsToBytes (l.take (8 * (l.length / 8)))) := by
  refine ⟨?_, ?_, ?_⟩
  · intro plen groups
    have main : ∀ (gs : List (List ℕ)) (acc : List ℕ), acc.length ≤ plen →
        (gs.foldl (appendLimited plen) acc).length ≤ plen := by
      intro gs
      induction gs with
      | nil => intro acc h; simpa using h
      | cons g gs ih =>
          intro acc h
          simp only [List.foldl_cons]
          exact ih _ (appendLimited_length_le _ _ _ h)
    exact main groups [] (by simp)
  · intro l
    induction l using decodeBitsToBytes.induct with
    | case1 l h ih =>
        rw [decodeBitsToBytes, if_pos h]
        simp only [List.length_cons, List.length_drop] at ih ⊢
        omega
    | case2 l h =>
        rw [decodeBitsToBytes, if_neg h]
        simp only [List.length_nil]
        omega
  · intro l
    induction l using decodeBitsToBytes.induct with
    | case1 l h ih =>
        have hK : 8 ≤ 8 * (l.length / 8) := by omega
        have hlen : (l.take (8 * (l.length / 8))).length = 8 * (l.length / 8) := by
          simp only [List.length_take]
          omega
        rw [decodeBitsToBytes, if_pos h]
        rw [show decodeBitsToBytes (l.take (8 * (l.length / 8)))
            = if 8 ≤ (l.take (8 * (l.length / 8))).length then
                bitsVal ((l.take (8 * (l.length / 8))).take 8) ::
                  decodeBitsToBytes ((l.take (8 * (l.length / 8))).drop 8)
              else [] from by rw [decodeBitsToBytes]]
        rw [if_pos (by rw [hlen]; exact hK)]
        congr 1
        · rw [List.take_take, min_eq_left hK]
        · rw [List.drop_take]
          rw [ih]
          congr 1
          simp only [List.length_drop]
          congr 1
          omega
    | case2 l h =>
        rw [decodeBitsToBytes, if_neg h]
        rw [show l.length / 8 = 0 from by omega]
        simp only [Nat.mul_zero, List.take_zero]
        rw [decodeBitsToBytes]
        simp

/-! ## Claim C9: RS analysis output -/

section RSLemmas

/-- The counting loop computes the declarative group counts. -/
lemma rsCounts_eq (m : ℕ) (pixels : List ℕ) :
    rsCounts m pixels =
      (rsCountClass m pixels true RSClass.R, rsCountClass m pixels true RSClass.S,
       rsCountClass m pixels false RSClass.R, rsCountClass m pixels false RSClass.S,
       (rsGroups m pixels).length) := by
  unfold rsCounts rsCountClass
  simp only [Bool.if_true_left]
  generalize rsGroups m pixels = gs
  suffices main : ∀ (gs : List (List ℕ)) (st : ℕ × ℕ × ℕ × ℕ × ℕ),
      gs.foldl
        (fun st g =>
          (st.1 + (if classifyGroup g (maskPos g) = RSClass.R then 1 else 0),
           st.2.1 + (if classifyGroup g (maskPos g) = RSClass.S then 1 else 0),
           st.2.2.1 + (if classifyGroup g (maskNeg g) = RSClass.R then 1 else 0),
           st.2.2.2.1 + (if classifyGroup g (maskNeg g) = RSClass.S then 1 else 0),
           st.2.2.2.2 + 1)) st
      = (st.1 + gs.countP (fun g => classifyGroup g (maskPos g) = RSClass.R),
         st.2.1 + gs.countP (fun g => classifyGroup g (maskPos g) = RSClass.S),
         st.2.2.1 + gs.countP (fun g => classifyGroup g (maskNeg g) = RSClass.R),
         st.2.2.2.1 + gs.countP (fun g => classifyGroup g (maskNeg g) = RSClass.S),
         st.2.2.2.2 + gs.length) by
    rw [main gs (0, 0, 0, 0, 0)]
    simp
  intro gs
  induction gs with
  | nil => intro st; simp
  | cons g gs ih =>
      intro st
      simp only [List.foldl_cons, List.countP_cons, List.length_cons, ih]
      refine Prod.ext ?_ (Prod.ext ?_ (Prod.ext ?_ (Prod.ext ?_ ?_))) <;>
        simp only [decide_eq_true_eq] <;> (try split_ifs) <;> omega

end RSLemmas

/-- C9.  `RSAnalysis.analyze` normalizes the four group counts by the
total number of non-overlapping groups, reports `d_R = RM − RN` and
`d_S = SM − SN`, estimates `embedding_rate = |d_R| / (|d_R| + |d_S|)`
when that denominator exceeds `1e-3` and `0` otherwise, and declares
stego detected exactly when `embedding_rate > 0.1`. -/
theorem rs_analysis_output_formulas (m : ℕ) (pixels : List ℕ) (hm : 1 ≤ m) :
    (rsAnalyze m pixels).totalGroups = (rsGroups m pixels).length ∧
    (rsAnalyze m pixels).rmN = (if 0 < (rsGroups m pixels).length then
      (rsCountClass m pixels true RSClass.R : ℚ) / (rsGroups m pixels).length
      else 0) ∧
    (rsAnalyze m pixels).smN = (if 0 < (rsGroups m pixels).length then
      (rsCountClass m pixels true RSClass.S : ℚ) / (rsGroups m pixels).length
      else 0) ∧
    (rsAnalyze m pixels).rnN = (if 0 < (rsGroups m pixels).length then
      (rsCountClass m pixels false RSClass.R : ℚ) / (rsGroups m pixels).length
      else 0) ∧
    (rsAnalyze m pixels).snN = (if 0 < (rsGroups m pixels).length then
      (rsCountClass m pixels false RSClass.S : ℚ) / (rsGroups m pixels).length
      else 0) ∧
    (rsAnalyze m pixels).dR = (rsAnalyze m pixels).rmN - (rsAnalyze m pixels).rnN ∧
    (rsAnalyze m pixels).dS = (rsAnalyze m pixels).smN - (rsAnalyze m pixels).snN ∧
    (rsAnalyze m pixels).rate
      = (if 1 / 1000 < |(rsAnalyze m pixels).dR| + |(rsAnalyze m pixels).dS| then
          |(rsAnalyze m pixels).dR| / (|(rsAnalyze m pixels).dR| + |(rsAnalyze m pixels).dS|)
        else 0) ∧
    ((rsAnalyze m pixels).detected = true ↔ 1 / 10 < (rsAnalyze m pixels).rate) := by
  unfold rsAnalyze
  rw [rsCounts_eq]
  exact ⟨rfl, rfl, rfl, rfl, rfl, rfl, rfl, rfl, decide_eq_true_iff⟩

/-- Witness for C9 at `mask_size = 2` and a concrete five-pixel image. -/
theorem rs_analysis_output_formulas_witness :
    (1 ≤ 2) ∧
    ((rsAnalyze 2 [3, 3, 7, 2, 2]).detected = true ↔
      1 / 10 < (rsAnalyze 2 [3, 3, 7, 2, 2]).rate) :=
  ⟨by decide, (rs_analysis_output_formulas 2 [3, 3, 7, 2, 2] (by decide)).2.2.2.2.2.2.2.2⟩

/-! ## Claim C6: block ordering -/

section OrderingLemmas

lemma pyRange_mem_lb {s t : ℤ} {step : ℕ} : ∀ z ∈ pyRange s t step, s ≤ z := by
  intro z hz
  induction s, t, step using pyRange.induct with
  | case1 s t step hcond ih =>
      rw [pyRange, if_pos hcond] at hz
      rcases List.mem_cons.mp hz with rfl | hz'
      · exact le_refl z
      · have := ih hz'
        omega
  | case2 s t step hcond =>
      rw [pyRange, if_neg hcond] at hz
      exact absurd hz (List.not_mem_nil z)

lemma pyRange_mem_step {s t : ℤ} {step : ℕ} :
    ∀ z ∈ pyRange s t step, ∃ k : ℕ, z = s + step * k := by
  intro z hz
  induction s, t, step using pyRange.induct with
  | case1 s t step hcond ih =>
      rw [pyRange, if_pos hcond] at hz
      rcases List.mem_cons.mp hz with rfl | hz'
      · exact ⟨0, by omega⟩
      · obtain ⟨k, hk⟩ := ih hz'
        refine ⟨k + 1, ?_⟩
        rw [hk]
        push_cast
        ring
  | case2 s t step hcond =>
      rw [pyRange, if_neg hcond] at hz
      exact absurd hz (List.not_mem_nil z)

lemma pyRange_mem_ub {s t : ℤ} {step : ℕ} : ∀ z ∈ pyRange s t step, z < t := by
  intro z hz
  induction s, t, step using pyRange.induct with
  | case1 s t step hcond ih =>
      rw [pyRange, if_pos hcond] at hz
      rcases List.mem_cons.mp hz with rfl | hz'
      · exact hcond.1
      · exact ih hz'
  | case2 s t step hcond =>
      rw [pyRange, if_neg hcond] at hz
      exact absurd hz (List.not_mem_nil z)

lemma pyRange_pairwise_lt (s t : ℤ) (step : ℕ) :
    (pyRange s t step).Pairwise (· < ·) := by
  induction s, t, step using pyRange.induct with
  | case1 s t step hcond ih =>
      rw [pyRange, if_pos hcond]
      refine List.Pairwise.cons ?_ ih
      intro z hz
      have := pyRange_mem_lb z hz
      omega
  | case2 s t step hcond =>
      rw [pyRange, if_neg hcond]
      exact List.Pairwise.nil

/-- A row-major double loop over two strictly increasing nonnegative
index lists is pairwise increasing in the lexicographic order. -/
lemma flatMap_pairs_pairwise {oi oj : List ℤ}
    (ho : oi.Pairwise (· < ·)) (hj : oj.Pairwise (· < ·))
    (ho0 : ∀ z ∈ oi, 0 ≤ z) (hj0 : ∀ z ∈ oj, 0 ≤ z) :
    (oi.flatMap (fun i => oj.map (fun j => (i.toNat, j.toNat)))).Pairwise
      (fun a b : ℕ × ℕ => a.1 < b.1 ∨ (a.1 = b.1 ∧ a.2 < b.2)) := by
  rw [List.pairwise_flatMap]
  constructor
  · intro i _
    rw [List.pairwise_map]
    refine List.Pairwise.imp_of_mem ?_ hj
    intro j j' hjm hjm' hlt
    right
    refine ⟨rfl, ?_⟩
    have := hj0 j hjm
    have := hj0 j' hjm'
    omega
  · refine List.Pairwise.imp_of_mem ?_ ho
    intro i i' him him' hlt x hx y hy
    obtain ⟨j, hjm, rfl⟩ := List.mem_map.mp hx
    obtain ⟨j', hjm', rfl⟩ := List.mem_map.mp hy
    left
    have := ho0 i him
    have := ho0 i' him'
    omega

lemma tileOrigins_pairwise (h w B : ℕ) :
    (tileOrigins h w B).Pairwise
      (fun a b : ℕ × ℕ => a.1 < b.1 ∨ (a.1 = b.1 ∧ a.2 < b.2)) :=
  flatMap_pairs_pairwise (pyRange_pairwise_lt _ _ _) (pyRange_pairwise_lt _ _ _)
    (fun z hz => pyRange_mem_lb z hz) (fun z hz => pyRange_mem_lb z hz)

lemma pairIndices_pairwise (B : ℕ) :
    (pairIndices B).Pairwise
      (fun a b : ℕ × ℕ => a.1 < b.1 ∨ (a.1 = b.1 ∧ a.2 < b.2)) :=
  flatMap_pairs_pairwise (pyRange_pairwise_lt _ _ _) (pyRange_pairwise_lt _ _ _)
    (fun z hz => pyRange_mem_lb z hz) (fun z hz => pyRange_mem_lb z hz)

lemma mem_pyInsertDesc {x a : ℝ × ℕ × ℕ} :
    ∀ {l : List (ℝ × ℕ × ℕ)}, x ∈ pyInsertDesc a l ↔ x = a ∨ x ∈ l := by
  intro l
  induction l with
  | nil => simp [pyInsertDesc]
  | cons b t ih =>
      unfold pyInsertDesc
      split_ifs
      · simp
      · rw [List.mem_cons, ih, List.mem_cons]
        tauto

lemma pyInsertDesc_perm (a : ℝ × ℕ × ℕ) (l : List (ℝ × ℕ × ℕ)) :
    (pyInsertDesc a l).Perm (a :: l) := by
  induction l with
  | nil => exact List.Perm.refl _
  | cons b t ih =>
      unfold pyInsertDesc
      split_ifs
      · exact List.Perm.refl _
      · exact (ih.cons b).trans (List.Perm.swap a b t)

lemma pySortDesc_perm (l : List (ℝ × ℕ × ℕ)) : (pySortDesc l).Perm l := by
  induction l with
  | nil => exact List.Perm.refl _
  | cons a t ih =>
      unfold pySortDesc
      exact (pyInsertDesc_perm a (pySortDesc t)).trans (ih.cons a)

lemma pyInsertDesc_pairwise {a : ℝ × ℕ × ℕ} :
    ∀ {l : List (ℝ × ℕ × ℕ)}, l.Pairwise ordRel → (∀ b ∈ l, idxLex a b) →
      (pyInsertDesc a l).Pairwise ordRel := by
  intro l
  induction l with
  | nil =>
      intro _ _
      simp [pyInsertDesc]
  | cons b t ih =>
      intro hl ha
      have hl' := List.pairwise_cons.mp hl
      unfold pyInsertDesc
      split_ifs with hba
      · refine List.Pairwise.cons ?_ hl
        intro c hc
        rcases List.mem_cons.mp hc with rfl | hct
        · rcases lt_or_eq_of_le hba with hlt | heq
          · exact Or.inl hlt
          · exact Or.inr ⟨heq.symm, ha _ (List.mem_cons_self _ _)⟩
        · have hbc := hl'.1 c hct
          have hc1 : c.1 ≤ b.1 := by
            rcases hbc with hx | hx
            · exact le_of_lt hx
            · exact le_of_eq hx.1.symm
          rcases lt_or_eq_of_le (le_trans hc1 hba) with hlt | heq
          · exact Or.inl hlt
          · exact Or.inr ⟨heq.symm, ha _ (List.mem_cons_of_mem _ hct)⟩
      · refine List.Pairwise.cons ?_
          (ih hl'.2 (fun c hct => ha _ (List.mem_cons_of_mem _ hct)))
        intro c hc
        rcases mem_pyInsertDesc.mp hc with rfl | hct
        · exact Or.inl (lt_of_not_le hba)
        · exact hl'.1 c hct

lemma pySortDesc_pairwise :
    ∀ {l : List (ℝ × ℕ × ℕ)}, l.Pairwise idxLex → (pySortDesc l).Pairwise ordRel := by
  intro l
  induction l with
  | nil =>
      intro _
      simp [pySortDesc]
  | cons a t ih =>
      intro hl
      have hl' := List.pairwise_cons.mp hl
      unfold pySortDesc
      apply pyInsertDesc_pairwise (ih hl'.2)
      intro b hb
      exact hl'.1 b ((pySortDesc_perm t).mem_iff.mp hb)

end OrderingLemmas

/-- C6.  Encoder (lines 232-241) and decoder (lines 346-352) build the
same candidate list — every B×B tile except the first, header-bearing
tile, scored by the block mean of the edge map — and sort it with the
same comparator; the result is a permutation of the candidates that is
pairwise ordered by strictly descending score with ties broken by
ascending tile origin in natural row-major order (`ordRel`). -/
theorem block_order_comparator_agreement (edges : ℕ → ℕ → ℝ) (h w B : ℕ) :
    encoderBlockOrder edges h w B = decoderBlockOrder edges h w B ∧
    encoderCandidates edges h w B = decoderCandidates edges h w B ∧
    (encoderBlockOrder edges h w B).Perm (encoderCandidates edges h w B) ∧
    (encoderBlockOrder edges h w B).Pairwise ordRel := by
  refine ⟨rfl, rfl, pySortDesc_perm _, ?_⟩
  apply pySortDesc_pairwise
  unfold encoderCandidates
  rw [List.pairwise_map]
  refine List.Pairwise.imp ?_
    (((tileOrigins_pairwise h w B).sublist (List.drop_sublist 1 _)))
  intro a b hab
  exact hab

/-! ## Claim C7: capacity monotonicity in the threshold -/

section WalkLemmas

lemma caseBits_pos (p1 p2 : ℕ) : 0 < caseBits (getEmbeddingCase p1 p2) := by
  rcases getEmbeddingCase_mem p1 p2 with hc | hc | hc | hc <;> rw [hc] <;> decide

lemma writePx_ne {σ : ℕ → ℕ → ℕ} {y x v y' x' : ℕ} (h : ¬(y' = y ∧ x' = x)) :
    writePx σ y x v y' x' = σ y' x' := by
  unfold writePx
  rw [if_neg h]

/-- One pair step: the bit index and the `embedded_bits` counter advance
by `min(pairCap, remaining)` judged against any buffer `σ0` that agrees
with the current buffer on the pair's two cells, and the buffer is
unchanged outside those cells. -/
lemma processPair_spec (payload : List ℕ) (Me : ℚ) (bi bj : ℕ) (σ0 : ℕ → ℕ → ℕ)
    (st : WalkState) (ij : ℕ × ℕ)
    (hagree : ∀ y x, pairCells bi bj ij y x → st.buf y x = σ0 y x) :
    (processPair payload Me bi bj st ij).bitIdx
        = st.bitIdx + min (pairCap σ0 Me bi bj ij) (payload.length - st.bitIdx) ∧
    (processPair payload Me bi bj st ij).embedded
        = st.embedded + min (pairCap σ0 Me bi bj ij) (payload.length - st.bitIdx) ∧
    ∀ y x, ¬ pairCells bi bj ij y x →
      (processPair payload Me bi bj st ij).buf y x = st.buf y x := by
  have hp1 : st.buf (bi + ij.1) (bj + ij.2) = σ0 (bi + ij.1) (bj + ij.2) :=
    hagree _ _ (Or.inl ⟨rfl, rfl⟩)
  have hp2 : st.buf (bi + ij.1 + 1) (bj + ij.2) = σ0 (bi + ij.1 + 1) (bj + ij.2) :=
    hagree _ _ (Or.inr ⟨rfl, rfl⟩)
  by_cases hL : payload.length ≤ st.bitIdx
  · have heq : processPair payload Me bi bj st ij = st := by
      unfold processPair
      rw [if_pos hL]
    rw [heq]
    refine ⟨by omega, by omega, fun _ _ _ => rfl⟩
  · by_cases hgate : (((((σ0 (bi + ij.1) (bj + ij.2) : ℤ)
        - (σ0 (bi + ij.1 + 1) (bj + ij.2) : ℤ)).natAbs : ℕ) : ℚ)) ≤ Me
    · have hcap : pairCap σ0 Me bi bj ij
          = caseBits (getEmbeddingCase (σ0 (bi + ij.1) (bj + ij.2))
              (σ0 (bi + ij.1 + 1) (bj + ij.2))) := by
        unfold pairCap
        rw [if_pos hgate]
      have htkpos : 0 < min (caseBits (getEmbeddingCase (σ0 (bi + ij.1) (bj + ij.2))
          (σ0 (bi + ij.1 + 1) (bj + ij.2)))) (payload.length - st.bitIdx) := by
        have := caseBits_pos (σ0 (bi + ij.1) (bj + ij.2))
          (σ0 (bi + ij.1 + 1) (bj + ij.2))
        omega
      have hbtslen : ((payload.drop st.bitIdx).take
          (min (caseBits (getEmbeddingCase (σ0 (bi + ij.1) (bj + ij.2))
            (σ0 (bi + ij.1 + 1) (bj + ij.2)))) (payload.length - st.bitIdx))).length
          = min (caseBits (getEmbeddingCase (σ0 (bi + ij.1) (bj + ij.2))
            (σ0 (bi + ij.1 + 1) (bj + ij.2)))) (payload.length - st.bitIdx) := by
        simp only [List.length_take, List.length_drop]
        omega
      have hbts : (payload.drop st.bitIdx).take
          (min (caseBits (getEmbeddingCase (σ0 (bi + ij.1) (bj + ij.2))
            (σ0 (bi + ij.1 + 1) (bj + ij.2)))) (payload.length - st.bitIdx)) ≠ [] := by
        intro hnil
        rw [hnil] at hbtslen
        simp only [List.length_nil] at hbtslen
        omega
      have heq : processPair payload Me bi bj st ij =
          { buf := writePx (writePx st.buf (bi + ij.1) (bj + ij.2)
                (embedBitsInPixelPair (σ0 (bi + ij.1) (bj + ij.2))
                  (σ0 (bi + ij.1 + 1) (bj + ij.2))
                  ((payload.drop st.bitIdx).take
                    (min (caseBits (getEmbeddingCase (σ0 (bi + ij.1) (bj + ij.2))
                      (σ0 (bi + ij.1 + 1) (bj + ij.2))))
                      (payload.length - st.bitIdx)))).1)
              (bi + ij.1 + 1) (bj + ij.2)
              (embedBitsInPixelPair (σ0 (bi + ij.1) (bj + ij.2))
                (σ0 (bi + ij.1 + 1) (bj + ij.2))
                ((payload.drop st.bitIdx).take
                  (min (caseBits (getEmbeddingCase (σ0 (bi + ij.1) (bj + ij.2))
                    (σ0 (bi + ij.1 + 1) (bj + ij.2))))
                    (payload.length - st.bitIdx)))).2,
            bitIdx := st.bitIdx + min (caseBits (getEmbeddingCase
              (σ0 (bi + ij.1) (bj + ij.2)) (σ0 (bi + ij.1 + 1) (bj + ij.2))))
              (payload.length - st.bitIdx),
            embedded := st.embedded + ((payload.drop st.bitIdx).take
              (min (caseBits (getEmbeddingCase (σ0 (bi + ij.1) (bj + ij.2))
                (σ0 (bi + ij.1 + 1) (bj + ij.2))))
                (payload.length - st.bitIdx))).length } := by
        unfold processPair
        rw [if_neg hL]
        simp only [hp1, hp2]
        rw [if_pos hgate, if_pos hbts]
      rw [heq, hcap]
      refine ⟨rfl, by rw [hbtslen], ?_⟩
      intro y x hnc
      unfold pairCells at hnc
      have hn1 : ¬(y = bi + ij.1 ∧ x = bj + ij.2) := fun hh => hnc (Or.inl hh)
      have hn2 : ¬(y = bi + ij.1 + 1 ∧ x = bj + ij.2) := fun hh => hnc (Or.inr hh)
      simp only []
      rw [writePx_ne hn2, writePx_ne hn1]
    · have hcap : pairCap σ0 Me bi bj ij = 0 := by
        unfold pairCap
        rw [if_neg hgate]
      have heq : processPair payload Me bi bj st ij = st := by
        unfold processPair
        rw [if_neg hL]
        simp only [hp1, hp2]
        rw [if_neg hgate]
      rw [heq, hcap]
      refine ⟨by omega, by omega, fun _ _ _ => rfl⟩

/-- The pair fold of a block: total consumption is
`min(Σ pairCap, remaining)`, and the buffer is unchanged outside the
pairs' cells. -/
lemma foldPairs_spec (payload : List ℕ) (Me : ℚ) (bi bj : ℕ) (σ0 : ℕ → ℕ → ℕ) :
    ∀ (ps : List (ℕ × ℕ)) (st : WalkState),
      ps.Pairwise (fun a b => ∀ y x,
        ¬(pairCells bi bj a y x ∧ pairCells bi bj b y x)) →
      (∀ ij ∈ ps, ∀ y x, pairCells bi bj ij y x → st.buf y x = σ0 y x) →
      (ps.foldl (processPair payload Me bi bj) st).bitIdx
          = st.bitIdx + min ((ps.map (pairCap σ0 Me bi bj)).sum)
              (payload.length - st.bitIdx) ∧
      (ps.foldl (processPair payload Me bi bj) st).embedded
          = st.embedded + min ((ps.map (pairCap σ0 Me bi bj)).sum)
              (payload.length - st.bitIdx) ∧
      (∀ y x, (∀ ij ∈ ps, ¬ pairCells bi bj ij y x) →
        (ps.foldl (processPair payload Me bi bj) st).buf y x = st.buf y x) := by
  intro ps
  induction ps with
  | nil =>
      intro st _ _
      refine ⟨by simp, by simp, fun _ _ _ => rfl⟩
  | cons ij ps ih =>
      intro st hdisj hagree
      have hdisj' := List.pairwise_cons.mp hdisj
      have hhead := processPair_spec payload Me bi bj σ0 st ij
        (fun y x hc => hagree ij (List.mem_cons_self _ _) y x hc)
      have hagree1 : ∀ ij' ∈ ps, ∀ y x, pairCells bi bj ij' y x →
          (processPair payload Me bi bj st ij).buf y x = σ0 y x := by
        intro ij' hmem y x hc
        rw [hhead.2.2 y x (fun hc' => hdisj'.1 ij' hmem y x ⟨hc', hc⟩)]
        exact hagree ij' (List.mem_cons_of_mem _ hmem) y x hc
      have hrec := ih (processPair payload Me bi bj st ij) hdisj'.2 hagree1
      simp only [List.foldl_cons, List.map_cons, List.sum_cons]
      refine ⟨?_, ?_, ?_⟩
      · rw [hrec.1, hhead.1]
        omega
      · rw [hrec.2.1, hhead.2.1, hhead.1]
        omega
      · intro y x hnc
        rw [hrec.2.2 y x (fun ij' hm => hnc ij' (List.mem_cons_of_mem _ hm)),
          hhead.2.2 y x (hnc ij (List.mem_cons_self _ _))]

/-- `meanOfMedians` only reads the block's own samples. -/
lemma meanOfMedians_congr {σ1 σ2 : ℕ → ℕ → ℕ} {B bi bj : ℕ}
    (h : ∀ y x, inBlock B bi bj y x → σ1 y x = σ2 y x) :
    meanOfMedians σ1 B bi bj = meanOfMedians σ2 B bi bj := by
  unfold meanOfMedians
  congr 1
  apply congrArg List.sum
  apply List.map_congr_left
  intro j hj
  congr 1
  apply List.map_congr_left
  intro i hi
  have hiB := List.mem_range.mp hi
  have hjB := List.mem_range.mp hj
  exact h _ _ ⟨by omega, by omega, by omega, by omega⟩

/-- Pairs of the intra-block walk lie inside the block. -/
lemma pairCells_inBlock {B bi bj : ℕ} {ij : ℕ × ℕ} (hij : ij ∈ pairIndices B)
    {y x : ℕ} (hc : pairCells bi bj ij y x) : inBlock B bi bj y x := by
  unfold pairIndices at hij
  obtain ⟨i, hi, hmem⟩ := List.mem_flatMap.mp hij
  obtain ⟨j, hj, rfl⟩ := List.mem_map.mp hmem
  have hi1 := pyRange_mem_lb _ hi
  have hi2 := pyRange_mem_ub _ hi
  have hj1 := pyRange_mem_lb _ hj
  have hj2 := pyRange_mem_ub _ hj
  unfold pairCells at hc
  unfold inBlock
  rcases hc with ⟨rfl, rfl⟩ | ⟨rfl, rfl⟩ <;>
    refine ⟨by omega, by omega, by omega, by omega⟩

lemma pairCap_congr {σ1 σ2 : ℕ → ℕ → ℕ} {Me : ℚ} {bi bj : ℕ} {ij : ℕ × ℕ}
    (h : ∀ y x, pairCells bi bj ij y x → σ1 y x = σ2 y x) :
    pairCap σ1 Me bi bj ij = pairCap σ2 Me bi bj ij := by
  unfold pairCap
  rw [h _ _ (Or.inl ⟨rfl, rfl⟩), h _ _ (Or.inr ⟨rfl, rfl⟩)]

/-- `blockCap` only reads the block's own samples. -/
lemma blockCap_congr {σ1 σ2 : ℕ → ℕ → ℕ} {B bi bj : ℕ}
    (h : ∀ y x, inBlock B bi bj y x → σ1 y x = σ2 y x) :
    blockCap σ1 B bi bj = blockCap σ2 B bi bj := by
  unfold blockCap
  rw [meanOfMedians_congr h]
  apply congrArg List.sum
  apply List.map_congr_left
  intro ij hij
  exact pairCap_congr (fun y x hc => h y x (pairCells_inBlock hij hc))

lemma pairIndices_fst_even {B : ℕ} {ij : ℕ × ℕ} (h : ij ∈ pairIndices B) :
    ij.1 % 2 = 0 := by
  unfold pairIndices at h
  obtain ⟨i, hi, hmem⟩ := List.mem_flatMap.mp h
  obtain ⟨j, hj, rfl⟩ := List.mem_map.mp hmem
  obtain ⟨k, hk⟩ := pyRange_mem_step _ hi
  have h0 := pyRange_mem_lb _ hi
  have hi' : i = (2 * k : ℕ) := by
    rw [hk]
    push_cast
    ring
  simp only [hi']
  omega

/-- Distinct pairs of the walk occupy disjoint buffer cells. -/
lemma pairIndices_cells_disjoint (B bi bj : ℕ) :
    (pairIndices B).Pairwise (fun a b => ∀ y x,
      ¬(pairCells bi bj a y x ∧ pairCells bi bj b y x)) := by
  refine List.Pairwise.imp_of_mem ?_ (pairIndices_pairwise B)
  intro a b ha hb hlex y x hboth
  obtain ⟨hca, hcb⟩ := hboth
  have hae := pairIndices_fst_even ha
  have hbe := pairIndices_fst_even hb
  unfold pairCells at hca hcb
  rcases hca with ⟨h1, h2⟩ | ⟨h1, h2⟩ <;> rcases hcb with ⟨h3, h4⟩ | ⟨h3, h4⟩ <;>
    rcases hlex with h5 | ⟨h5, h6⟩ <;> omega

/-- One block step: consumption is `min(blockCap, remaining)` for
eligible blocks (zero otherwise), judged against any buffer agreeing
with the current one on the block, and the buffer is unchanged outside
the block. -/
lemma processBlock_spec (payload : List ℕ) (B : ℕ) (T : ℝ) (σ0 : ℕ → ℕ → ℕ)
    (st : WalkState) (s : ℝ) (bi bj : ℕ)
    (hagree : ∀ y x, inBlock B bi bj y x → st.buf y x = σ0 y x) :
    (processBlock payload B T st (s, bi, bj)).bitIdx
        = st.bitIdx + (if s < T then 0
            else min (blockCap σ0 B bi bj) (payload.length - st.bitIdx)) ∧
    (processBlock payload B T st (s, bi, bj)).embedded
        = st.embedded + (if s < T then 0
            else min (blockCap σ0 B bi bj) (payload.length - st.bitIdx)) ∧
    ∀ y x, ¬ inBlock B bi bj y x →
      (processBlock payload B T st (s, bi, bj)).buf y x = st.buf y x := by
  by_cases hL : payload.length ≤ st.bitIdx
  · have heq : processBlock payload B T st (s, bi, bj) = st := by
      unfold processBlock
      rw [if_pos hL]
    rw [heq]
    refine ⟨?_, ?_, fun _ _ _ => rfl⟩ <;> split_ifs <;> omega
  · by_cases hT : s < T
    · have heq : processBlock payload B T st (s, bi, bj) = st := by
        unfold processBlock
        rw [if_neg hL]
        simp only []
        rw [if_pos hT]
      rw [heq, if_pos hT]
      exact ⟨by omega, by omega, fun _ _ _ => rfl⟩
    · have heq : processBlock payload B T st (s, bi, bj)
          = (pairIndices B).foldl
              (processPair payload (meanOfMedians st.buf B bi bj) bi bj) st := by
        unfold processBlock
        rw [if_neg hL]
        simp only []
        rw [if_neg hT]
      have hMe : meanOfMedians st.buf B bi bj = meanOfMedians σ0 B bi bj :=
        meanOfMedians_congr hagree
      rw [heq, hMe, if_neg hT]
      have hfold := foldPairs_spec payload (meanOfMedians σ0 B bi bj) bi bj σ0
        (pairIndices B) st (pairIndices_cells_disjoint B bi bj)
        (fun ij hij y x hc => hagree y x (pairCells_inBlock hij hc))
      refine ⟨hfold.1, hfold.2.1, ?_⟩
      intro y x hyx
      exact hfold.2.2 y x (fun ij hij hc => hyx (pairCells_inBlock hij hc))

lemma walkConsume_nil (T : ℝ) (r : ℕ) : walkConsume T [] r = 0 := rfl

lemma walkConsume_cons (T : ℝ) (b : ℝ × ℕ) (bs : List (ℝ × ℕ)) (r : ℕ) :
    walkConsume T (b :: bs) r = if b.1 < T then walkConsume T bs r
      else min b.2 r + walkConsume T bs (r - min b.2 r) := rfl

/-- The block fold equals greedy consumption over the blocks' capacities
judged against the initial buffer. -/
lemma walkFold_spec (payload : List ℕ) (B : ℕ) (T : ℝ) (σ0 : ℕ → ℕ → ℕ) :
    ∀ (bs : List (ℝ × ℕ × ℕ)) (st : WalkState),
      bs.Pairwise (fun a b => ∀ y x,
        ¬(inBlock B a.2.1 a.2.2 y x ∧ inBlock B b.2.1 b.2.2 y x)) →
      (∀ blk ∈ bs, ∀ y x, inBlock B blk.2.1 blk.2.2 y x → st.buf y x = σ0 y x) →
      (bs.foldl (processBlock payload B T) st).bitIdx
          = st.bitIdx + walkConsume T
              (bs.map (fun blk => (blk.1, blockCap σ0 B blk.2.1 blk.2.2)))
              (payload.length - st.bitIdx) ∧
      (bs.foldl (processBlock payload B T) st).embedded
          = st.embedded + walkConsume T
              (bs.map (fun blk => (blk.1, blockCap σ0 B blk.2.1 blk.2.2)))
              (payload.length - st.bitIdx) := by
  intro bs
  induction bs with
  | nil =>
      intro st _ _
      simp [walkConsume_nil]
  | cons blk bs ih =>
      intro st hdisj hagree
      obtain ⟨s, bi, bj⟩ := blk
      have hdisj' := List.pairwise_cons.mp hdisj
      have hhead := processBlock_spec payload B T σ0 st s bi bj
        (fun y x hc => hagree _ (List.mem_cons_self _ _) y x hc)
      have hagree1 : ∀ blk' ∈ bs, ∀ y x, inBlock B blk'.2.1 blk'.2.2 y x →
          (processBlock payload B T st (s, bi, bj)).buf y x = σ0 y x := by
        intro blk' hmem y x hc
        rw [hhead.2.2 y x (fun hc' => hdisj'.1 blk' hmem y x ⟨hc', hc⟩)]
        exact hagree blk' (List.mem_cons_of_mem _ hmem) y x hc
      have hrec := ih (processBlock payload B T st (s, bi, bj)) hdisj'.2 hagree1
      simp only [List.foldl_cons, List.map_cons]
      rw [walkConsume_cons]
      simp only []
      by_cases hT : s < T
      · have hb : (processBlock payload B T st (s, bi, bj)).bitIdx = st.bitIdx := by
          rw [hhead.1, if_pos hT]
          omega
        have he : (processBlock payload B T st (s, bi, bj)).embedded
            = st.embedded := by
          rw [hhead.2.1, if_pos hT]
          omega
        rw [if_pos hT]
        constructor
        · rw [hrec.1, hb]
        · rw [hrec.2, hb, he]
      · have hb : (processBlock payload B T st (s, bi, bj)).bitIdx
            = st.bitIdx + min (blockCap σ0 B bi bj) (payload.length - st.bitIdx) := by
          rw [hhead.1, if_neg hT]
        have he : (processBlock payload B T st (s, bi, bj)).embedded
            = st.embedded + min (blockCap σ0 B bi bj) (payload.length - st.bitIdx) := by
          rw [hhead.2.1, if_neg hT]
        have harg : payload.length - (processBlock payload B T st (s, bi, bj)).bitIdx
            = (payload.length - st.bitIdx)
              - min (blockCap σ0 B bi bj) (payload.length - st.bitIdx) := by
          rw [hb]
          omega
        rw [if_neg hT]
        constructor
        · rw [hrec.1, harg, hb]
          omega
        · rw [hrec.2, harg, he]
          omega

lemma walkConsume_mono (T : ℝ) : ∀ (bs : List (ℝ × ℕ)) {r r' : ℕ}, r ≤ r' →
    walkConsume T bs r ≤ walkConsume T bs r' ∧
    walkConsume T bs r' ≤ walkConsume T bs r + (r' - r) := by
  intro bs
  induction bs with
  | nil =>
      intro r r' _
      simp [walkConsume_nil]
  | cons b bs ih =>
      intro r r' h
      rw [walkConsume_cons, walkConsume_cons]
      split_ifs with hT
      · exact ih h
      · have h2 : r - min b.2 r ≤ r' - min b.2 r' := by omega
        obtain ⟨ih1, ih2⟩ := ih h2
        omega

/-- Lowering the threshold never decreases greedy consumption. -/
lemma walkConsume_anti {T T' : ℝ} (hT : T' ≤ T) :
    ∀ (bs : List (ℝ × ℕ)) (r : ℕ), walkConsume T bs r ≤ walkConsume T' bs r := by
  intro bs
  induction bs with
  | nil =>
      intro r
      simp [walkConsume_nil]
  | cons b bs ih =>
      intro r
      rw [walkConsume_cons, walkConsume_cons]
      by_cases h1 : b.1 < T'
      · rw [if_pos h1, if_pos (lt_of_lt_of_le h1 hT)]
        exact ih r
      · rw [if_neg h1]
        by_cases h2 : b.1 < T
        · rw [if_pos h2]
          have ha := ih r
          have hb := (walkConsume_mono T' bs
            (show r - min b.2 r ≤ r by omega)).2
          omega
        · rw [if_neg h2]
          have := ih (r - min b.2 r)
          omega

lemma tileOrigins_mult {h w B : ℕ} {bij : ℕ × ℕ} (hm : bij ∈ tileOrigins h w B) :
    (∃ k, bij.1 = B * k) ∧ (∃ k, bij.2 = B * k) := by
  unfold tileOrigins at hm
  obtain ⟨i, hi, hmem⟩ := List.mem_flatMap.mp hm
  obtain ⟨j, hj, rfl⟩ := List.mem_map.mp hmem
  obtain ⟨k1, hk1⟩ := pyRange_mem_step _ hi
  obtain ⟨k2, hk2⟩ := pyRange_mem_step _ hj
  have hi' : i = ((B * k1 : ℕ) : ℤ) := by
    rw [hk1]
    push_cast
    ring
  have hj' : j = ((B * k2 : ℕ) : ℤ) := by
    rw [hk2]
    push_cast
    ring
  refine ⟨⟨k1, ?_⟩, ⟨k2, ?_⟩⟩
  · show i.toNat = B * k1
    rw [hi']
    omega
  · show j.toNat = B * k2
    rw [hj']
    omega

/-- Distinct B-aligned tiles have disjoint B×B regions. -/
lemma blocks_regions_disjoint {B a1 a2 b1 b2 : ℕ}
    (ha1 : ∃ k, a1 = B * k) (ha2 : ∃ k, a2 = B * k)
    (hb1 : ∃ k, b1 = B * k) (hb2 : ∃ k, b2 = B * k)
    (hne : a1 ≠ b1 ∨ a2 ≠ b2) :
    ∀ y x, ¬(inBlock B a1 a2 y x ∧ inBlock B b1 b2 y x) := by
  obtain ⟨k1, rfl⟩ := ha1
  obtain ⟨k2, rfl⟩ := ha2
  obtain ⟨k3, rfl⟩ := hb1
  obtain ⟨k4, rfl⟩ := hb2
  have hmul : ∀ m n : ℕ, m < n → B * m + B ≤ B * n := by
    intro m n hmn
    calc B * m + B = B * (m + 1) := by ring
    _ ≤ B * n := Nat.mul_le_mul_left B hmn
  intro y x hboth
  obtain ⟨hA, hB⟩ := hboth
  unfold inBlock at hA hB
  rcases hne with hne | hne
  · rcases Nat.lt_trichotomy k1 k3 with hlt | heq | hgt
    · have := hmul k1 k3 hlt
      omega
    · subst heq
      exact hne rfl
    · have := hmul k3 k1 hgt
      omega
  · rcases Nat.lt_trichotomy k2 k4 with hlt | heq | hgt
    · have := hmul k2 k4 hlt
      omega
    · subst heq
      exact hne rfl
    · have := hmul k4 k2 hgt
      omega

/-- The candidate blocks occupy pairwise disjoint regions. -/
lemma candidates_regions_disjoint (edges : ℕ → ℕ → ℝ) (h w B : ℕ) :
    (encoderCandidates edges h w B).Pairwise (fun a b => ∀ y x,
      ¬(inBlock B a.2.1 a.2.2 y x ∧ inBlock B b.2.1 b.2.2 y x)) := by
  unfold encoderCandidates
  rw [List.pairwise_map]
  refine List.Pairwise.imp_of_mem ?_
    ((tileOrigins_pairwise h w B).sublist (List.drop_sublist 1 _))
  intro a b ha hb hlex
  have ha' := tileOrigins_mult (List.mem_of_mem_drop ha)
  have hb' := tileOrigins_mult (List.mem_of_mem_drop hb)
  refine blocks_regions_disjoint ha'.1 ha'.2 hb'.1 hb'.2 ?_
  rcases hlex with hx | ⟨hx1, hx2⟩
  · exact Or.inl (Nat.ne_of_lt hx)
  · exact Or.inr (Nat.ne_of_lt hx2)

/-- `embedded_bits` equals greedy consumption over the sorted blocks'
capacities judged against the post-header buffer. -/
lemma adaptiveEmbeddedBits_eq (edges : ℕ → ℕ → ℝ) (img : ℕ → ℕ → ℕ)
    (h w B : ℕ) (T : ℝ) (payload : List ℕ) :
    adaptiveEmbeddedBits edges img h w B T payload
      = walkConsume T ((encoderBlockOrder edges h w B).map (fun blk =>
          (blk.1, blockCap (stegoInit img h w payload.length) B blk.2.1 blk.2.2)))
          payload.length := by
  have hsym : ∀ {a b : ℝ × ℕ × ℕ},
      (∀ y x, ¬(inBlock B a.2.1 a.2.2 y x ∧ inBlock B b.2.1 b.2.2 y x)) →
      (∀ y x, ¬(inBlock B b.2.1 b.2.2 y x ∧ inBlock B a.2.1 a.2.2 y x)) :=
    fun hab y x hc => hab y x ⟨hc.2, hc.1⟩
  have hdisj : (encoderBlockOrder edges h w B).Pairwise (fun a b => ∀ y x,
      ¬(inBlock B a.2.1 a.2.2 y x ∧ inBlock B b.2.1 b.2.2 y x)) :=
    ((pySortDesc_perm (encoderCandidates edges h w B)).pairwise_iff hsym).mpr
      (candidates_regions_disjoint edges h w B)
  have hwalk := walkFold_spec payload B T (stegoInit img h w payload.length)
    (encoderBlockOrder edges h w B)
    { buf := stegoInit img h w payload.length, bitIdx := 0, embedded := 0 }
    hdisj (fun _ _ _ _ _ => rfl)
  unfold adaptiveEmbeddedBits adaptiveEmbedInternal
  rw [hwalk.2]
  simp

end WalkLemmas

/-- C7.  For a fixed cover image, edge map, block size and payload,
lowering the edge threshold never decreases the `embedded_bits` value
reported by `AdaptiveSteganography.encode`: with a lower threshold the
same sorted walk visits a superset of eligible blocks, whose per-block
capacities are determined by the post-header buffer alone. -/
theorem embedded_bits_antitone_in_threshold (edges : ℕ → ℕ → ℝ)
    (img : ℕ → ℕ → ℕ) (h w B : ℕ) (payload : List ℕ) {T T' : ℝ} (hT : T' ≤ T) :
    adaptiveEmbeddedBits edges img h w B T payload
      ≤ adaptiveEmbeddedBits edges img h w B T' payload := by
  rw [adaptiveEmbeddedBits_eq, adaptiveEmbeddedBits_eq]
  exact walkConsume_anti hT _ _

/-! ## Claim C1: the adaptive round-trip

On the 16×48 cover with every pixel 1, payload `00 00 80` (24 bits),
`B = 8`, `T = 0`, the encoder (all candidate blocks eligible, capacity
704 bits) writes the only payload-visible change at buffer cell (2, 8):
`1 ↦ 3`, inside the first candidate block at (0, 8).  The theorem below
checks, by evaluation of the model, the mechanism that breaks decoding:
the pair was active for the encoder (`|1−1| = 0 ≤ Me = 1`), but the
decoder re-evaluates the gate on the modified pixels, where
`|3−1| = 2 > Me = 1` (the block's mean-of-medians recomputed from the
stego samples is still 1), so the pair holding payload bits (1, 0) is
skipped and decode returns `00 00 00 ≠ 00 00 80`. -/

/-- C1 (code-bug evidence).  At the failing input's first active pair:
the decoder-side `Me` of the block at (0, 8) of the stego image equals 1;
the cover pair (1, 1) is case 0 and passes the gate `|1−1| ≤ 1`; the
encoder writes bits `[1, 0]`, producing the pair (3, 1); the re-evaluated
decoder gate `|3−1| ≤ 1` now fails, although the written pair still
carries exactly the payload bits `[1, 0]`. -/
theorem adaptive_roundtrip_gate_desync_at_failing_input :
    meanOfMedians (fun y x =>
      if y = 0 then (if x = 7 ∨ x = 15 ∨ x = 43 ∨ x = 44 then 1 else 0)
      else if y = 2 ∧ x = 8 then 3 else 1) 8 0 8 = 1 ∧
    getEmbeddingCase 1 1 = 0 ∧
    ((((1 : ℤ) - (1 : ℤ)).natAbs : ℚ) ≤ 1) ∧
    embedBitsInPixelPair 1 1 [1, 0] = (3, 1) ∧
    ¬ ((((3 : ℤ) - (1 : ℤ)).natAbs : ℚ) ≤ 1) ∧
    extractBitsFromPixelPair 3 1 = [1, 0] := by
  refine ⟨?_, by decide, by decide, by decide, by decide, by decide⟩
  norm_num [meanOfMedians, npMedian, sortedNat, insertNat, List.range_succ]

/-- Witness for C7: a 16×48 zero image, thresholds 30 and 0. -/
theorem embedded_bits_antitone_in_threshold_witness :
    ((0 : ℝ) ≤ 30) ∧
    adaptiveEmbeddedBits (fun _ _ => (0 : ℝ)) (fun _ _ => 0) 16 48 8 30 [1, 0, 1]
      ≤ adaptiveEmbeddedBits (fun _ _ => (0 : ℝ)) (fun _ _ => 0) 16 48 8 0 [1, 0, 1] :=
  ⟨by norm_num,
    embedded_bits_antitone_in_threshold (fun _ _ => (0 : ℝ)) (fun _ _ => 0)
      16 48 8 [1, 0, 1] (by norm_num)⟩

end ISProj
